import Mathlib

/-!
Verification development for a 2D Poisson-disk sampling library
(grid-accelerated Bridson active-list algorithm).

The Rust sources `src/poisson.rs` and `src/distributions.rs` are shallowly
embedded below.  Scalars (`f32` in the source) are modelled as real numbers;
machine-integer casts (`as usize`, `as isize`) are modelled by `Int.toNat`
and `Int.ceil`/`Int.floor` at this idealized level.  Where a claim is about
the machine-level numeric behaviour itself, the saturating float-to-`isize`
cast and the release-mode wrapping `isize` arithmetic of the source are
modelled exactly (`satCast64`, `wrap64`, `scanHalfWidthM` below).  Code
paths that abort the
process (`unwrap` on `None`, the explicit abort in `next`) are modelled by
an outer `Option`: a `none` result of a step function means the program
aborts.  The external crates (`math`'s `Vec2`, `rand`'s uniform
distributions and `Rng`) are modelled at their interface boundary as
described in the specification.
-/

set_option maxHeartbeats 1000000

/-- Modelled from the spec: the external 2D vector type of the `math` crate,
providing construction from two scalar components, component access,
subtraction, addition and squared length. -/
structure Vec2 where
  x : ℝ
  y : ℝ

/-- Modelled from the spec: `Vec2::from_components`. -/
def Vec2.from_components (x y : ℝ) : Vec2 := ⟨x, y⟩

/-- Modelled from the spec: vector subtraction on the external vector type. -/
def Vec2.sub (a b : Vec2) : Vec2 := ⟨a.x - b.x, a.y - b.y⟩

/-- Modelled from the spec: vector addition on the external vector type. -/
def Vec2.add (a b : Vec2) : Vec2 := ⟨a.x + b.x, a.y + b.y⟩

/-- Modelled from the spec: squared Euclidean length on the external vector type. -/
def Vec2.length_squared (v : Vec2) : ℝ := v.x * v.x + v.y * v.y

/-- Modelled from the spec: the external randomness source.  It is an oracle
holding three independent streams of raw draws together with read positions:
`units` are raw unit draws backing `Uniform<f32>` samples, `nats` are raw
draws backing `gen_range`, and `vecs` are the draws of the external
`Uniform<Vec2>` domain distribution. -/
structure Rng where
  units : Nat → ℝ
  nats : Nat → Nat
  vecs : Nat → Vec2
  upos : Nat
  npos : Nat
  vpos : Nat

/-- Advance the unit-draw position of the oracle by `k`. -/
def Rng.bumpU (r : Rng) (k : Nat) : Rng := { r with upos := r.upos + k }

/-- Clamp a raw draw into the unit interval, so that every oracle is a
legitimate source of uniform draws. -/
noncomputable def clamp01 (u : ℝ) : ℝ := max 0 (min 1 u)

/-- Modelled from the spec: `rand::distributions::Uniform<f32>` built with
`new_inclusive(low, high)`, represented by its two parameters. -/
structure UniformR where
  low : ℝ
  high : ℝ

/-- Modelled from the spec: sampling a `Uniform<f32>`; the draw is the
affine image of a unit draw, so it ranges over the inclusive interval
`[low, high]` when `low ≤ high`. -/
noncomputable def UniformR.sample (d : UniformR) (r : Rng) : ℝ × Rng :=
  (d.low + (d.high - d.low) * clamp01 (r.units r.upos), r.bumpU 1)

/-- Modelled from the spec: `rng.gen_range(0..n)`, a uniform index in
`[0, n)`; the oracle's raw draw is reduced mod `n`. -/
def Rng.genRange (r : Rng) (n : Nat) : Nat × Rng :=
  (r.nats r.npos % n, { r with npos := r.npos + 1 })

/-- Modelled from the spec: sampling the external `Uniform<Vec2>` domain
distribution; the draw is taken from the oracle's vector stream. -/
def sampleUniformVec2 (r : Rng) : Vec2 × Rng :=
  (r.vecs r.vpos, { r with vpos := r.vpos + 1 })

/-- The annulus distribution of `src/distributions.rs`: a squared-radius
uniform and an angle uniform. -/
structure AnnulusDistribution where
  radius : UniformR
  angle : UniformR

/-- `AnnulusDistribution::new(low, high)` from `src/distributions.rs`:
the angle is uniform over `[0, TAU]` and the (squared) radius is uniform
over `[low*low, high*high]`. -/
noncomputable def AnnulusDistribution.new (low high : ℝ) : AnnulusDistribution :=
  { angle := ⟨0, 2 * Real.pi⟩
    radius := ⟨low * low, high * high⟩ }

/-- `AnnulusDistribution::sample` from `src/distributions.rs`: draw the
squared radius, take its square root, draw the angle, and build the vector
`(r * cos θ, r * sin θ)`. -/
noncomputable def AnnulusDistribution.sample (d : AnnulusDistribution) (r : Rng) :
    Vec2 × Rng :=
  let p1 := d.radius.sample r
  let rr := Real.sqrt p1.1
  let p2 := d.angle.sample p1.2
  (Vec2.from_components (rr * Real.cos p2.1) (rr * Real.sin p2.1), p2.2)

/-- The spatial grid of `src/poisson.rs`. -/
structure Grid where
  inner : List (Option Vec2)
  extent : Nat × Nat
  cell_size : ℝ
  radius : ℝ
  bottom_left : Vec2
  top_right : Vec2

/-- `Grid::new` from `src/poisson.rs`: `cell_size = radius / sqrt 2`, grid
dimensions are the ceiling of the box dimensions divided by the cell size
(the `as usize` cast saturates negative values to zero, modelled by
`Int.toNat`), and the cell array is filled with `None`. -/
noncomputable def Grid.new (radius : ℝ) (bl tr : Vec2) : Grid :=
  let cell_size := radius / Real.sqrt 2
  let width := (⌈(tr.x - bl.x) / cell_size⌉).toNat
  let height := (⌈(tr.y - bl.y) / cell_size⌉).toNat
  { inner := List.replicate (width * height) none
    bottom_left := bl
    top_right := tr
    extent := (width, height)
    cell_size := cell_size
    radius := radius }

open Classical in
/-- `Grid::get_cell` from `src/poisson.rs`: `none` when the position is on
or outside any of the four box boundaries, otherwise the floored cell
coordinates (the `as usize` casts are modelled by `Int.toNat`). -/
noncomputable def Grid.get_cell (g : Grid) (pos : Vec2) : Option (Nat × Nat) :=
  if pos.x ≥ g.top_right.x ∨ pos.x ≤ g.bottom_left.x ∨
      pos.y ≥ g.top_right.y ∨ pos.y ≤ g.bottom_left.y then
    none
  else
    some ((⌊(pos.x - g.bottom_left.x) / g.cell_size⌋).toNat,
          (⌊(pos.y - g.bottom_left.y) / g.cell_size⌋).toNat)

/-- `Grid::get_index` from `src/poisson.rs`. -/
noncomputable def Grid.get_index (g : Grid) (pos : Vec2) : Option Nat :=
  (g.get_cell pos).map (fun c => c.1 + c.2 * g.extent.1)

/-- `Grid::insert` from `src/poisson.rs`: writes `pos` into its cell and
returns the flat index (together with the updated grid, since the embedding
is state-passing), or `none` when the position is out of bounds. -/
noncomputable def Grid.insert (g : Grid) (pos : Vec2) : Option (Nat × Grid) :=
  (g.get_index pos).map (fun index => (index, { g with inner := g.inner.set index (some pos) }))

/-- `Grid::get` from `src/poisson.rs`: the occupant of a cell, `none` when
the cell is unoccupied or the index is out of range. -/
def Grid.get (g : Grid) (index : Nat) : Option Vec2 :=
  (g.inner[index]?).bind id

/-- The neighbourhood half-width `m` computed at the top of
`Grid::can_insert` in `src/poisson.rs`, at the file's idealized level: the
`isize` arithmetic is taken over unbounded integers.  This is exact for
moderate radii; the machine-accurate computation, with the saturating
float-to-`isize` cast and the release-mode wrapping `isize` operations of
the source, is `scanHalfWidthM` below. -/
noncomputable def scanHalfWidth (g : Grid) : ℤ :=
  2 * (⌈1 / g.cell_size⌉ + 1)

/-- Two's-complement wrap of an integer into the 64-bit signed range
`[-2^63, 2^63)`: the release-mode behaviour of overflowing `isize`
arithmetic on a 64-bit target (debug builds abort on the same overflow). -/
def wrap64 (z : ℤ) : ℤ := (z + 2 ^ 63) % 2 ^ 64 - 2 ^ 63

/-- The saturating `as isize` cast applied to an (integral) float value:
values beyond the 64-bit signed range clamp to its endpoints. -/
def satCast64 (z : ℤ) : ℤ :=
  if z < -(2 ^ 63) then -(2 ^ 63)
  else if 2 ^ 63 - 1 < z then 2 ^ 63 - 1
  else z

/-- The half-width computation `2 * ((1.0 / self.cell_size).ceil() as isize + 1)`
of `Grid::can_insert` with the machine-integer semantics of the source on a
64-bit release build: the float-to-`isize` cast saturates (`satCast64`) and
the `+ 1` and `2 *` are wrapping `isize` operations (`wrap64`); the scalar
`1.0 / cell_size` keeps the file's real-number idealization. -/
noncomputable def scanHalfWidthM (g : Grid) : ℤ :=
  wrap64 (2 * wrap64 (satCast64 ⌈1 / g.cell_size⌉ + 1))

open Classical in
/-- The body of the inner `for j in -m..=m` loop of `Grid::can_insert`:
skip negative absolute rows (the source's `continue`), compute the flat
index `h * width + w` exactly as the source does, and answer `false`
(reject) when an occupant lies within squared distance `radius * radius`
of the candidate. -/
noncomputable def scanCell (g : Grid) (x : Vec2) (m : ℤ) (h : Nat) (wi : ℤ)
    (dj : Nat) : Bool :=
  if (h : ℤ) + (-m + dj) < 0 then true
  else
    match g.get (((h : ℤ) + (-m + dj)).toNat * g.extent.1 + wi.toNat) with
    | none => true
    | some pos =>
      if (pos.sub x).length_squared ≤ g.radius * g.radius then false else true

/-- The body of the outer `for i in -m..=m` loop of `Grid::can_insert`:
skip negative absolute columns, then run the inner row scan. -/
noncomputable def scanRow (g : Grid) (x : Vec2) (m : ℤ) (wh : Nat × Nat)
    (di : Nat) : Bool :=
  if (wh.1 : ℤ) + (-m + di) < 0 then true
  else (List.range (2 * m + 1).toNat).all (scanCell g x m wh.2 ((wh.1 : ℤ) + (-m + di)))

/-- `Grid::can_insert` from `src/poisson.rs`: `false` when out of bounds,
otherwise scan cell offsets `i, j ∈ [-m, m]` around the candidate's cell
(the loops of the source are the two bounded `List.all`s over ranges of
size `2 * m + 1`, with the loop bodies named `scanRow` and `scanCell`),
accepting exactly when no scanned occupant is within `radius * radius`. -/
noncomputable def Grid.can_insert (g : Grid) (x : Vec2) : Bool :=
  match g.get_cell x with
  | none => false
  | some wh =>
    (List.range (2 * scanHalfWidth g + 1).toNat).all (scanRow g x (scanHalfWidth g) wh)

/-- The algorithm state of `RobertBridson` in `src/poisson.rs`. -/
structure RobertBridson where
  grid : Grid
  indices : List Nat
  annulus_distr : AnnulusDistribution
  vec2_distr : Vec2 × Vec2

/-- `RobertBridson::new` from `src/poisson.rs`. -/
noncomputable def RobertBridson.new (radius : ℝ) (bl tr : Vec2) : RobertBridson :=
  { grid := Grid.new radius bl tr
    indices := []
    annulus_distr := AnnulusDistribution.new radius (2 * radius)
    vec2_distr := (bl, tr) }

/-- `RobertBridson::init` from `src/poisson.rs`: sample a seed from the
domain distribution, insert it (the `unwrap` abort when insertion fails is
the outer `none`), record the index in the active set and emit the seed. -/
noncomputable def RobertBridson.init (st : RobertBridson) (r : Rng) :
    Option (Vec2 × RobertBridson × Rng) :=
  let p := sampleUniformVec2 r
  match st.grid.insert p.1 with
  | none => none
  | some ig =>
    some (p.1, { st with grid := ig.2, indices := st.indices ++ [ig.1] }, p.2)

/-- Result of the inner 30-attempt proposal loop of `RobertBridson::next`. -/
inductive AttemptResult where
  | accepted (x : Vec2) (index : Nat) (grid : Grid) (r : Rng)
  | exhausted (r : Rng)
  | panicked

/-- The inner `for _ in 0..30` proposal loop of `RobertBridson::next`:
draw a candidate around `xi` from the annulus distribution; when
`can_insert` accepts it, insert it (an `unwrap` abort is `panicked`),
otherwise keep trying until the fuel runs out. -/
noncomputable def attemptLoop (g : Grid) (d : AnnulusDistribution) (xi : Vec2) :
    Nat → Rng → AttemptResult
  | 0, r => .exhausted r
  | Nat.succ fuel, r =>
    let p := d.sample r
    let x := xi.add p.1
    if g.can_insert x then
      match g.insert x with
      | some ig => .accepted x ig.1 ig.2 p.2
      | none => .panicked
    else attemptLoop g d xi fuel p.2

/-- Remove index `i` from a vector by `swap_remove`: overwrite slot `i`
with the last element and pop the last slot. -/
def swapRemove (l : List α) (i : Nat) : List α :=
  match l.getLast? with
  | none => []
  | some a => (l.set i a).dropLast

theorem swapRemove_length_lt (l : List α) (i : Nat) (h : l ≠ []) :
    (swapRemove l i).length < l.length := by
  match hl : l.getLast? with
  | none => exact absurd (List.getLast?_eq_none_iff.mp hl) h
  | some a =>
    simp only [swapRemove, hl]
    have hlen : 0 < l.length := List.length_pos.mpr h
    have : ((l.set i a).dropLast).length = (l.set i a).length - 1 := List.length_dropLast _
    simp only [this, List.length_set]
    omega

/-- `RobertBridson::next` from `src/poisson.rs`: loop while the active set
is non-empty; pick a random slot, read its point (the explicit abort when
the grid holds no point there is the outer `none`), run the 30-attempt
proposal loop; on acceptance push the new index and emit the point, on
exhaustion swap-remove the slot and retry. -/
noncomputable def RobertBridson.next (st : RobertBridson) (r : Rng) :
    Option (Option Vec2 × RobertBridson × Rng) :=
  if hne : st.indices = [] then some (none, st, r)
  else
    let k := (r.genRange st.indices.length).1
    let r1 := (r.genRange st.indices.length).2
    have hk : k < st.indices.length :=
      Nat.mod_lt _ (List.length_pos.mpr hne)
    match st.grid.get (st.indices.get ⟨k, hk⟩) with
    | none => none
    | some xi =>
      match attemptLoop st.grid st.annulus_distr xi 30 r1 with
      | .accepted x index grid r2 =>
        some (some x, { st with grid := grid, indices := st.indices ++ [index] }, r2)
      | .panicked => none
      | .exhausted r2 =>
        RobertBridson.next { st with indices := swapRemove st.indices k } r2
termination_by st.indices.length
decreasing_by
  simpa using swapRemove_length_lt st.indices k hne

/-- The lazy-sequence wrapper `PoissonDisk` of `src/poisson.rs`. -/
structure PoissonDisk where
  rng : Rng
  poisson_algo : RobertBridson
  init : Bool

/-- `PoissonDisk::new` from `src/poisson.rs`. -/
def PoissonDisk.new (r : Rng) (algo : RobertBridson) : PoissonDisk :=
  { rng := r, poisson_algo := algo, init := false }

/-- One pull of the `Iterator` implementation of `PoissonDisk` in
`src/poisson.rs`: the first pull runs `init`, every later pull runs `next`.
The outer `none` is an abort of the underlying algorithm; the inner `none`
is the termination signal of the sequence. -/
noncomputable def PoissonDisk.next (pd : PoissonDisk) : Option (Option Vec2 × PoissonDisk) :=
  if pd.init = false then
    match pd.poisson_algo.init pd.rng with
    | none => none
    | some xsr =>
      some (some xsr.1, { rng := xsr.2.2, poisson_algo := xsr.2.1, init := true })
  else
    match pd.poisson_algo.next pd.rng with
    | none => none
    | some osr =>
      some (osr.1, { rng := osr.2.2, poisson_algo := osr.2.1, init := true })

/-- A whole sampling session: wrapper over a fresh algorithm instance. -/
noncomputable def mkSession (radius : ℝ) (bl tr : Vec2) (r : Rng) : PoissonDisk :=
  PoissonDisk.new r (RobertBridson.new radius bl tr)

/-- Run `n` pulls of the wrapper, collecting the emitted points in order;
`none` when some pull aborts. -/
noncomputable def runPulls (pd : PoissonDisk) : Nat → Option (List Vec2 × PoissonDisk)
  | 0 => some ([], pd)
  | n + 1 =>
    match pd.next with
    | none => none
    | some opd =>
      match runPulls opd.2 n with
      | none => none
      | some xspd => some (opd.1.toList ++ xspd.1, xspd.2)

/-- Strict containment in the grid's bounding box (open on all four sides). -/
def insideBox (g : Grid) (p : Vec2) : Prop :=
  g.bottom_left.x < p.x ∧ p.x < g.top_right.x ∧
  g.bottom_left.y < p.y ∧ p.y < g.top_right.y

/-- A point occupies some cell of the grid. -/
def storedIn (g : Grid) (p : Vec2) : Prop := ∃ i, g.get i = some p

/-- Number of unoccupied cells of the grid. -/
def noneCount (g : Grid) : Nat := g.inner.countP (fun o => o.isNone)

/-- Well-formedness of a grid: the shape produced by `Grid::new` for a
positive radius, together with the session invariant that every stored
point sits in the cell its coordinates address. -/
structure GridWF (g : Grid) : Prop where
  radius_pos : 0 < g.radius
  cell_size_eq : g.cell_size = g.radius / Real.sqrt 2
  extent_w : g.extent.1 = (⌈(g.top_right.x - g.bottom_left.x) / g.cell_size⌉).toNat
  extent_h : g.extent.2 = (⌈(g.top_right.y - g.bottom_left.y) / g.cell_size⌉).toNat
  inner_len : g.inner.length = g.extent.1 * g.extent.2
  cells_sound : ∀ i p, g.get i = some p → g.get_index p = some i

/-- Pairwise separation invariant: distinct cells hold points strictly more
than `radius` apart (in squared distance). -/
def GridSep (g : Grid) : Prop :=
  ∀ i j p q, g.get i = some p → g.get j = some q → i ≠ j →
    g.radius * g.radius < (p.sub q).length_squared

theorem GridWF.cs_pos {g : Grid} (hwf : GridWF g) : 0 < g.cell_size := by
  rw [hwf.cell_size_eq]
  exact div_pos hwf.radius_pos (Real.sqrt_pos.mpr (by norm_num))

theorem GridWF.radius_eq {g : Grid} (hwf : GridWF g) :
    g.radius = g.cell_size * Real.sqrt 2 := by
  rw [hwf.cell_size_eq, div_mul_cancel₀]
  exact Real.sqrt_ne_zero'.mpr (by norm_num)

theorem GridWF.radius_sq_eq {g : Grid} (hwf : GridWF g) :
    g.radius * g.radius = 2 * (g.cell_size * g.cell_size) := by
  have h := hwf.radius_eq
  have hs : Real.sqrt 2 * Real.sqrt 2 = 2 := Real.mul_self_sqrt (by norm_num)
  rw [h]; ring_nf; nlinarith [hs]

theorem Vec2.length_squared_sub_comm (a b : Vec2) :
    (a.sub b).length_squared = (b.sub a).length_squared := by
  simp only [Vec2.sub, Vec2.length_squared]; ring

theorem Grid.get_cell_eq_some {g : Grid} {p : Vec2} {c : Nat × Nat} :
    g.get_cell p = some c ↔
      insideBox g p ∧
      c = ((⌊(p.x - g.bottom_left.x) / g.cell_size⌋).toNat,
           (⌊(p.y - g.bottom_left.y) / g.cell_size⌋).toNat) := by
  unfold Grid.get_cell insideBox
  by_cases h : p.x ≥ g.top_right.x ∨ p.x ≤ g.bottom_left.x ∨
      p.y ≥ g.top_right.y ∨ p.y ≤ g.bottom_left.y
  · rw [if_pos h]
    constructor
    · intro hc; exact absurd hc (by simp)
    · rintro ⟨⟨h1, h2, h3, h4⟩, -⟩
      rcases h with h | h | h | h <;> linarith
  · rw [if_neg h]
    push_neg at h
    obtain ⟨h1, h2, h3, h4⟩ := h
    simp only [Option.some.injEq]
    constructor
    · intro hc; exact ⟨⟨h2, h1, h4, h3⟩, hc.symm⟩
    · rintro ⟨-, hc⟩; exact hc.symm

theorem Grid.cell_bounds {g : Grid} (hwf : GridWF g) {p : Vec2} {w h : Nat}
    (hc : g.get_cell p = some (w, h)) :
    (w : ℤ) = ⌊(p.x - g.bottom_left.x) / g.cell_size⌋ ∧
    (h : ℤ) = ⌊(p.y - g.bottom_left.y) / g.cell_size⌋ ∧
    w < g.extent.1 ∧ h < g.extent.2 := by
  obtain ⟨hin, hcc⟩ := Grid.get_cell_eq_some.mp hc
  obtain ⟨h1, h2, h3, h4⟩ := hin
  rw [Prod.mk.injEq] at hcc
  obtain ⟨hw, hh⟩ := hcc
  have hcs := hwf.cs_pos
  have hax : 0 ≤ (p.x - g.bottom_left.x) / g.cell_size :=
    div_nonneg (by linarith) hcs.le
  have hay : 0 ≤ (p.y - g.bottom_left.y) / g.cell_size :=
    div_nonneg (by linarith) hcs.le
  have hwz : (w : ℤ) = ⌊(p.x - g.bottom_left.x) / g.cell_size⌋ := by
    rw [hw, Int.toNat_of_nonneg (Int.floor_nonneg.mpr hax)]
  have hhz : (h : ℤ) = ⌊(p.y - g.bottom_left.y) / g.cell_size⌋ := by
    rw [hh, Int.toNat_of_nonneg (Int.floor_nonneg.mpr hay)]
  refine ⟨hwz, hhz, ?_, ?_⟩
  · have hxx : (p.x - g.bottom_left.x) / g.cell_size <
        (g.top_right.x - g.bottom_left.x) / g.cell_size :=
      (div_lt_div_iff_of_pos_right hcs).mpr (by linarith)
    have hfc : ⌊(p.x - g.bottom_left.x) / g.cell_size⌋ <
        ⌈(g.top_right.x - g.bottom_left.x) / g.cell_size⌉ := by
      have hfl := Int.floor_le ((p.x - g.bottom_left.x) / g.cell_size)
      have hcl := Int.le_ceil ((g.top_right.x - g.bottom_left.x) / g.cell_size)
      exact_mod_cast lt_of_le_of_lt hfl (lt_of_lt_of_le hxx hcl)
    have hext := hwf.extent_w
    omega
  · have hyy : (p.y - g.bottom_left.y) / g.cell_size <
        (g.top_right.y - g.bottom_left.y) / g.cell_size :=
      (div_lt_div_iff_of_pos_right hcs).mpr (by linarith)
    have hfc : ⌊(p.y - g.bottom_left.y) / g.cell_size⌋ <
        ⌈(g.top_right.y - g.bottom_left.y) / g.cell_size⌉ := by
      have hfl := Int.floor_le ((p.y - g.bottom_left.y) / g.cell_size)
      have hcl := Int.le_ceil ((g.top_right.y - g.bottom_left.y) / g.cell_size)
      exact_mod_cast lt_of_le_of_lt hfl (lt_of_lt_of_le hyy hcl)
    have hext := hwf.extent_h
    omega

theorem flat_index_inj {w1 h1 w2 h2 W : Nat} (hw1 : w1 < W) (hw2 : w2 < W)
    (heq : w1 + h1 * W = w2 + h2 * W) : w1 = w2 ∧ h1 = h2 := by
  have hm1 : (w1 + h1 * W) % W = w1 := by
    rw [Nat.add_mul_mod_self_right, Nat.mod_eq_of_lt hw1]
  have hm2 : (w2 + h2 * W) % W = w2 := by
    rw [Nat.add_mul_mod_self_right, Nat.mod_eq_of_lt hw2]
  have hww : w1 = w2 := by rw [← hm1, ← hm2, heq]
  refine ⟨hww, ?_⟩
  subst hww
  have hW : 0 < W := Nat.lt_of_le_of_lt (Nat.zero_le w1) hw1
  have : h1 * W = h2 * W := by omega
  exact Nat.eq_of_mul_eq_mul_right hW this

theorem flat_index_lt {w h W H : Nat} (hw : w < W) (hh : h < H) :
    w + h * W < W * H := by
  calc w + h * W < W + h * W := by omega
    _ = (h + 1) * W := by ring
    _ ≤ H * W := Nat.mul_le_mul_right W hh
    _ = W * H := Nat.mul_comm H W

theorem scanHalfWidth_ge_four {g : Grid} (hwf : GridWF g) : 4 ≤ scanHalfWidth g := by
  have hcs := hwf.cs_pos
  have hpos : 0 < 1 / g.cell_size := by positivity
  have hceil : 0 < ⌈1 / g.cell_size⌉ := Int.ceil_pos.mpr hpos
  unfold scanHalfWidth
  omega

theorem same_cell_close {g : Grid} (hwf : GridWF g) {p q : Vec2} {c : Nat × Nat}
    (hp : g.get_cell p = some c) (hq : g.get_cell q = some c) :
    (p.sub q).length_squared < g.radius * g.radius := by
  obtain ⟨c1, c2⟩ := c
  obtain ⟨hp1, hp2, -, -⟩ := Grid.cell_bounds hwf hp
  obtain ⟨hq1, hq2, -, -⟩ := Grid.cell_bounds hwf hq
  have hcs := hwf.cs_pos
  have hfx : ⌊(p.x - g.bottom_left.x) / g.cell_size⌋ =
      ⌊(q.x - g.bottom_left.x) / g.cell_size⌋ := by omega
  have hfy : ⌊(p.y - g.bottom_left.y) / g.cell_size⌋ =
      ⌊(q.y - g.bottom_left.y) / g.cell_size⌋ := by omega
  have habs : ∀ a b : ℝ, ⌊a / g.cell_size⌋ = ⌊b / g.cell_size⌋ →
      a - b < g.cell_size ∧ b - a < g.cell_size := by
    intro a b hfl
    have h1 : a / g.cell_size < ⌊a / g.cell_size⌋ + 1 := Int.lt_floor_add_one _
    have h2 : (⌊b / g.cell_size⌋ : ℝ) ≤ b / g.cell_size := Int.floor_le _
    have h3 : b / g.cell_size < ⌊b / g.cell_size⌋ + 1 := Int.lt_floor_add_one _
    have h4 : (⌊a / g.cell_size⌋ : ℝ) ≤ a / g.cell_size := Int.floor_le _
    rw [hfl] at h1 h4
    constructor
    · have : a / g.cell_size - b / g.cell_size < 1 := by linarith
      rw [div_sub_div_same] at this
      calc a - b = (a - b) / g.cell_size * g.cell_size := by field_simp
        _ < 1 * g.cell_size := by
            exact mul_lt_mul_of_pos_right this hcs
        _ = g.cell_size := one_mul _
    · have : b / g.cell_size - a / g.cell_size < 1 := by linarith
      rw [div_sub_div_same] at this
      calc b - a = (b - a) / g.cell_size * g.cell_size := by field_simp
        _ < 1 * g.cell_size := mul_lt_mul_of_pos_right this hcs
        _ = g.cell_size := one_mul _
  have hx := habs (p.x - g.bottom_left.x) (q.x - g.bottom_left.x) (by
    simpa using hfx)
  have hy := habs (p.y - g.bottom_left.y) (q.y - g.bottom_left.y) (by
    simpa using hfy)
  have hrs := hwf.radius_sq_eq
  simp only [Vec2.sub, Vec2.length_squared]
  obtain ⟨hx1, hx2⟩ := hx
  obtain ⟨hy1, hy2⟩ := hy
  nlinarith [hx1, hx2, hy1, hy2, hcs]

theorem near_cells {g : Grid} (hwf : GridWF g) {p x : Vec2} {wp hp w h : Nat}
    (hcp : g.get_cell p = some (wp, hp)) (hcx : g.get_cell x = some (w, h))
    (hd : (p.sub x).length_squared ≤ g.radius * g.radius) :
    -2 ≤ (wp : ℤ) - w ∧ (wp : ℤ) - w ≤ 2 ∧ -2 ≤ (hp : ℤ) - h ∧ (hp : ℤ) - h ≤ 2 := by
  obtain ⟨hp1, hp2, -, -⟩ := Grid.cell_bounds hwf hcp
  obtain ⟨hx1, hx2, -, -⟩ := Grid.cell_bounds hwf hcx
  have hcs := hwf.cs_pos
  have hrpos := hwf.radius_pos
  simp only [Vec2.sub, Vec2.length_squared] at hd
  have hdx1 : p.x - x.x ≤ g.radius := by
    nlinarith [sq_nonneg (p.y - x.y), sq_nonneg (p.x - x.x - g.radius),
      sq_nonneg (p.x - x.x + g.radius)]
  have hdx2 : -(g.radius) ≤ p.x - x.x := by
    nlinarith [sq_nonneg (p.y - x.y), sq_nonneg (p.x - x.x - g.radius),
      sq_nonneg (p.x - x.x + g.radius)]
  have hdy1 : p.y - x.y ≤ g.radius := by
    nlinarith [sq_nonneg (p.x - x.x), sq_nonneg (p.y - x.y - g.radius),
      sq_nonneg (p.y - x.y + g.radius)]
  have hdy2 : -(g.radius) ≤ p.y - x.y := by
    nlinarith [sq_nonneg (p.x - x.x), sq_nonneg (p.y - x.y - g.radius),
      sq_nonneg (p.y - x.y + g.radius)]
  have hsqrt2lt : Real.sqrt 2 < 2 := by
    have h4 : Real.sqrt 2 < Real.sqrt 4 := Real.sqrt_lt_sqrt (by norm_num) (by norm_num)
    have : Real.sqrt 4 = 2 := by
      rw [show (4 : ℝ) = 2 ^ 2 by norm_num, Real.sqrt_sq (by norm_num)]
    linarith
  have hr2cs : g.radius < 2 * g.cell_size := by
    rw [hwf.radius_eq]
    nlinarith [hcs]
  have floor_key : ∀ a b : ℝ, a - b < 2 → ⌊a⌋ ≤ ⌊b⌋ + 2 := by
    intro a b hab
    have hcast : ((2 : ℤ) : ℝ) = (2 : ℝ) := by norm_cast
    calc ⌊a⌋ ≤ ⌊b + 2⌋ := Int.floor_le_floor (by linarith)
      _ = ⌊b + ((2 : ℤ) : ℝ)⌋ := by rw [hcast]
      _ = ⌊b⌋ + 2 := Int.floor_add_int b 2
  have hdivx : ((p.x - g.bottom_left.x) / g.cell_size) -
      ((x.x - g.bottom_left.x) / g.cell_size) = (p.x - x.x) / g.cell_size := by
    rw [div_sub_div_same]; ring_nf
  have hdivy : ((p.y - g.bottom_left.y) / g.cell_size) -
      ((x.y - g.bottom_left.y) / g.cell_size) = (p.y - x.y) / g.cell_size := by
    rw [div_sub_div_same]; ring_nf
  have hxlt : (p.x - x.x) / g.cell_size < 2 := by
    rw [div_lt_iff₀ hcs]; linarith
  have hxgt : -2 < (p.x - x.x) / g.cell_size := by
    rw [neg_lt, ← neg_div, div_lt_iff₀ hcs]; linarith
  have hylt : (p.y - x.y) / g.cell_size < 2 := by
    rw [div_lt_iff₀ hcs]; linarith
  have hygt : -2 < (p.y - x.y) / g.cell_size := by
    rw [neg_lt, ← neg_div, div_lt_iff₀ hcs]; linarith
  have k1 := floor_key ((p.x - g.bottom_left.x) / g.cell_size)
    ((x.x - g.bottom_left.x) / g.cell_size) (by rw [hdivx]; exact hxlt)
  have k2 := floor_key ((x.x - g.bottom_left.x) / g.cell_size)
    ((p.x - g.bottom_left.x) / g.cell_size) (by linarith [hdivx, hxgt])
  have k3 := floor_key ((p.y - g.bottom_left.y) / g.cell_size)
    ((x.y - g.bottom_left.y) / g.cell_size) (by rw [hdivy]; exact hylt)
  have k4 := floor_key ((x.y - g.bottom_left.y) / g.cell_size)
    ((p.y - g.bottom_left.y) / g.cell_size) (by linarith [hdivy, hygt])
  omega

/-- A successful hit of the neighbourhood scan of `can_insert`: a scanned
cell offset `(i, j)` within the half-width, with non-negative absolute
coordinates, whose flat index (computed exactly as the source computes it)
holds a point within squared distance `radius * radius` of the candidate. -/
def ScannedHit (g : Grid) (x : Vec2) (w h : Nat) : Prop :=
  ∃ i j : ℤ, -(scanHalfWidth g) ≤ i ∧ i ≤ scanHalfWidth g ∧
    -(scanHalfWidth g) ≤ j ∧ j ≤ scanHalfWidth g ∧
    0 ≤ (w : ℤ) + i ∧ 0 ≤ (h : ℤ) + j ∧
    ∃ p, g.get (((h : ℤ) + j).toNat * g.extent.1 + ((w : ℤ) + i).toNat) = some p ∧
      (p.sub x).length_squared ≤ g.radius * g.radius

theorem Grid.can_insert_none {g : Grid} {x : Vec2} (hc : g.get_cell x = none) :
    g.can_insert x = false := by
  unfold Grid.can_insert
  rw [hc]

theorem Grid.can_insert_some {g : Grid} {x : Vec2} {wh : Nat × Nat}
    (hc : g.get_cell x = some wh) :
    g.can_insert x =
      (List.range (2 * scanHalfWidth g + 1).toNat).all
        (scanRow g x (scanHalfWidth g) wh) := by
  unfold Grid.can_insert
  rw [hc]

theorem can_insert_true_no_hit {g : Grid} {x : Vec2} {w h : Nat}
    (hc : g.get_cell x = some (w, h)) (ht : g.can_insert x = true) :
    ¬ ScannedHit g x w h := by
  rintro ⟨i, j, hi1, hi2, hj1, hj2, hwi, hhj, p, hget, hdist⟩
  rw [Grid.can_insert_some hc, List.all_eq_true] at ht
  have hm : 0 ≤ scanHalfWidth g := by omega
  have hdi := ht ((i + scanHalfWidth g).toNat)
    (List.mem_range.mpr (by omega))
  unfold scanRow at hdi
  have ha1 : (w : ℤ) + (-(scanHalfWidth g) + ((i + scanHalfWidth g).toNat : ℤ)) =
      (w : ℤ) + i := by omega
  rw [ha1, if_neg (not_lt.mpr hwi), List.all_eq_true] at hdi
  have hdj := hdi ((j + scanHalfWidth g).toNat)
    (List.mem_range.mpr (by omega))
  unfold scanCell at hdj
  have ha2 : (h : ℤ) + (-(scanHalfWidth g) + ((j + scanHalfWidth g).toNat : ℤ)) =
      (h : ℤ) + j := by omega
  rw [ha2, if_neg (not_lt.mpr hhj), hget] at hdj
  simp [hdist] at hdj

theorem can_insert_false_hit {g : Grid} {x : Vec2} {w h : Nat}
    (hc : g.get_cell x = some (w, h)) (hf : g.can_insert x = false) :
    ScannedHit g x w h := by
  rw [Grid.can_insert_some hc, List.all_eq_false] at hf
  obtain ⟨di, hdi_mem, hdi⟩ := hf
  have hdi' : scanRow g x (scanHalfWidth g) (w, h) di = false := by
    revert hdi; cases scanRow g x (scanHalfWidth g) (w, h) di <;> simp
  have hdi_lt := List.mem_range.mp hdi_mem
  unfold scanRow at hdi'
  by_cases hwi : (w : ℤ) + (-(scanHalfWidth g) + di) < 0
  · rw [if_pos hwi] at hdi'; exact absurd hdi' (by simp)
  · rw [if_neg hwi, List.all_eq_false] at hdi'
    obtain ⟨dj, hdj_mem, hdj⟩ := hdi'
    have hdj' : scanCell g x (scanHalfWidth g) h ((w : ℤ) + (-(scanHalfWidth g) + di)) dj
        = false := by
      revert hdj
      cases scanCell g x (scanHalfWidth g) h ((w : ℤ) + (-(scanHalfWidth g) + di)) dj <;> simp
    have hdj_lt := List.mem_range.mp hdj_mem
    unfold scanCell at hdj'
    by_cases hhj : (h : ℤ) + (-(scanHalfWidth g) + dj) < 0
    · rw [if_pos hhj] at hdj'; exact absurd hdj' (by simp)
    · rw [if_neg hhj] at hdj'
      rcases hget : g.get
          (((h : ℤ) + (-(scanHalfWidth g) + dj)).toNat * g.extent.1 +
            ((w : ℤ) + (-(scanHalfWidth g) + di)).toNat) with _ | p
      · rw [hget] at hdj'; exact absurd hdj' (by simp)
      · rw [hget] at hdj'
        by_cases hdist : (p.sub x).length_squared ≤ g.radius * g.radius
        · refine ⟨-(scanHalfWidth g) + di, -(scanHalfWidth g) + dj,
            by omega, by omega, by omega, by omega,
            not_lt.mp hwi, not_lt.mp hhj, p, ?_, hdist⟩
          exact hget
        · simp [hdist] at hdj'

theorem can_insert_far {g : Grid} {x : Vec2} (hwf : GridWF g)
    (ht : g.can_insert x = true) :
    ∀ i p, g.get i = some p →
      g.radius * g.radius < (p.sub x).length_squared := by
  intro i p hip
  by_contra hle
  push_neg at hle
  obtain ⟨wh, hc⟩ : ∃ wh, g.get_cell x = some wh := by
    rcases hcc : g.get_cell x with _ | wh
    · rw [Grid.can_insert_none hcc] at ht; exact absurd ht (by simp)
    · exact ⟨wh, rfl⟩
  obtain ⟨w, h⟩ := wh
  apply can_insert_true_no_hit hc ht
  have hidx := hwf.cells_sound i p hip
  rw [Grid.get_index, Option.map_eq_some'] at hidx
  obtain ⟨⟨wp, hpc⟩, hcp, hfi⟩ := hidx
  obtain ⟨-, -, hwlt, hhlt⟩ := Grid.cell_bounds hwf hcp
  obtain ⟨hb1, hb2, hb3, hb4⟩ := near_cells hwf hcp hc hle
  have hm4 := scanHalfWidth_ge_four hwf
  refine ⟨(wp : ℤ) - w, (hpc : ℤ) - h, by omega, by omega, by omega, by omega,
    by omega, by omega, p, ?_, hle⟩
  have h1 : ((h : ℤ) + ((hpc : ℤ) - h)).toNat = hpc := by omega
  have h2 : ((w : ℤ) + ((wp : ℤ) - w)).toNat = wp := by omega
  rw [h1, h2]
  simp only at hfi
  rw [Nat.add_comm (hpc * g.extent.1) wp, hfi]
  exact hip

theorem can_insert_false_iff {g : Grid} {x : Vec2} {w h : Nat}
    (hc : g.get_cell x = some (w, h)) :
    g.can_insert x = false ↔ ScannedHit g x w h := by
  constructor
  · exact can_insert_false_hit hc
  · intro hit
    cases hb : g.can_insert x
    · rfl
    · exact absurd hit (can_insert_true_no_hit hc hb)

theorem can_insert_of_empty {g : Grid} {x : Vec2} (hemp : ∀ i, g.get i = none)
    {wh : Nat × Nat} (hc : g.get_cell x = some wh) : g.can_insert x = true := by
  obtain ⟨w, h⟩ := wh
  cases hb : g.can_insert x
  · obtain ⟨i, j, -, -, -, -, -, -, p, hget, -⟩ := can_insert_false_hit hc hb
    rw [hemp] at hget
    exact absurd hget (by simp)
  · rfl

theorem Grid.insert_eq {g : Grid} {x : Vec2} {idx : Nat}
    (h : g.get_index x = some idx) :
    g.insert x = some (idx, { g with inner := g.inner.set idx (some x) }) := by
  unfold Grid.insert
  rw [h]
  rfl

theorem Grid.insert_isSome {g : Grid} {x : Vec2} {wh : Nat × Nat}
    (h : g.get_cell x = some wh) : (g.insert x).isSome := by
  unfold Grid.insert Grid.get_index
  rw [h]
  rfl

theorem Grid.get_index_lt {g : Grid} (hwf : GridWF g) {x : Vec2} {idx : Nat}
    (h : g.get_index x = some idx) : idx < g.inner.length := by
  rw [Grid.get_index, Option.map_eq_some'] at h
  obtain ⟨⟨w, hc⟩, hcell, hval⟩ := h
  obtain ⟨-, -, hw, hh⟩ := Grid.cell_bounds hwf hcell
  simp only at hval
  rw [hwf.inner_len, ← hval]
  exact flat_index_lt hw hh

theorem Grid.get_set_self {g : Grid} {idx : Nat} {x : Vec2}
    (hlt : idx < g.inner.length) :
    ({ g with inner := g.inner.set idx (some x) } : Grid).get idx = some x := by
  unfold Grid.get
  simp only
  rw [List.getElem?_set_self (by simpa using hlt)]
  rfl

theorem Grid.get_set_ne {g : Grid} {idx j : Nat} {x : Vec2} (hne : idx ≠ j) :
    ({ g with inner := g.inner.set idx (some x) } : Grid).get j = g.get j := by
  unfold Grid.get
  simp only
  rw [List.getElem?_set_ne hne]

theorem countP_set_some (x : Vec2) :
    ∀ (l : List (Option Vec2)) (i : Nat), l[i]? = some none →
      (l.set i (some x)).countP (fun o => o.isNone) + 1 =
        l.countP (fun o => o.isNone) := by
  intro l
  induction l with
  | nil => intro i hi; simp at hi
  | cons a t ih =>
    intro i hi
    cases i with
    | zero =>
      simp only [List.getElem?_cons_zero, Option.some.injEq] at hi
      subst hi
      simp [List.countP_cons]
    | succ n =>
      simp only [List.getElem?_cons_succ] at hi
      simp only [List.set_cons_succ, List.countP_cons]
      have := ih n hi
      omega

theorem Grid.get_cell_set (g : Grid) (l : List (Option Vec2)) :
    ({ g with inner := l } : Grid).get_cell = g.get_cell := rfl

theorem Grid.get_index_set (g : Grid) (l : List (Option Vec2)) :
    ({ g with inner := l } : Grid).get_index = g.get_index := rfl

/-- Everything one `Grid::insert` after a successful separation check does:
it lands in the (previously empty) cell addressed by the point, keeps every
other cell, preserves well-formedness and the separation invariant, and
fills exactly one empty cell. -/
theorem insert_step {g : Grid} (hwf : GridWF g) (hsep : GridSep g) {x : Vec2}
    {idx : Nat} (hidx : g.get_index x = some idx)
    (hfar : ∀ i p, g.get i = some p →
      g.radius * g.radius < (p.sub x).length_squared) :
    ∃ g', g.insert x = some (idx, g') ∧
      GridWF g' ∧ GridSep g' ∧
      g'.get idx = some x ∧
      (∀ j, j ≠ idx → g'.get j = g.get j) ∧
      g.get idx = none ∧
      noneCount g' + 1 = noneCount g ∧
      g'.radius = g.radius ∧ g'.cell_size = g.cell_size ∧
      g'.bottom_left = g.bottom_left ∧ g'.top_right = g.top_right ∧
      g'.extent = g.extent ∧ g'.inner.length = g.inner.length := by
  have hlt : idx < g.inner.length := Grid.get_index_lt hwf hidx
  obtain ⟨⟨w, h⟩, hcx, hvx⟩ := Option.map_eq_some'.mp hidx
  simp only at hvx
  obtain ⟨-, -, hwlt, hhlt⟩ := Grid.cell_bounds hwf hcx
  have hempty : g.get idx = none := by
    rcases hocc : g.get idx with _ | p
    · rfl
    · exfalso
      have hpi := hwf.cells_sound idx p hocc
      obtain ⟨⟨wp, hpc⟩, hcp, hvp⟩ := Option.map_eq_some'.mp hpi
      simp only at hvp
      obtain ⟨-, -, hwplt, hhplt⟩ := Grid.cell_bounds hwf hcp
      have heq : wp + hpc * g.extent.1 = w + h * g.extent.1 := by rw [hvp, hvx]
      obtain ⟨hww, hhh⟩ := flat_index_inj hwplt hwlt heq
      have hclose : (p.sub x).length_squared < g.radius * g.radius := by
        apply same_cell_close hwf hcp
        rw [hcx, hww, hhh]
      have hfarp := hfar idx p hocc
      linarith
  refine ⟨{ g with inner := g.inner.set idx (some x) }, Grid.insert_eq hidx,
    ?_, ?_, Grid.get_set_self hlt, fun j hj => Grid.get_set_ne (fun he => hj he.symm),
    hempty, ?_, rfl, rfl, rfl, rfl, rfl, by simp⟩
  · constructor
    · exact hwf.radius_pos
    · exact hwf.cell_size_eq
    · exact hwf.extent_w
    · exact hwf.extent_h
    · simpa using hwf.inner_len
    · intro i p hp
      by_cases hie : i = idx
      · subst hie
        rw [Grid.get_set_self hlt] at hp
        cases hp
        rw [Grid.get_index_set]
        exact hidx
      · rw [Grid.get_set_ne (fun he => hie he.symm)] at hp
        rw [Grid.get_index_set]
        exact hwf.cells_sound i p hp
  · intro i j p q hp hq hij
    by_cases hie : i = idx
    · subst hie
      rw [Grid.get_set_self hlt] at hp
      cases hp
      rw [Grid.get_set_ne hij] at hq
      rw [Vec2.length_squared_sub_comm]
      exact hfar j q hq
    · rw [Grid.get_set_ne (fun he => hie he.symm)] at hp
      by_cases hje : j = idx
      · subst hje
        rw [Grid.get_set_self hlt] at hq
        cases hq
        exact hfar i p hp
      · rw [Grid.get_set_ne (fun he => hje he.symm)] at hq
        exact hsep i j p q hp hq hij
  · unfold noneCount
    simp only
    apply countP_set_some
    have hinner : g.inner[idx]? = some (g.inner.get ⟨idx, hlt⟩) := by
      simp [List.getElem?_eq_getElem hlt, List.get_eq_getElem]
    rcases hval : g.inner.get ⟨idx, hlt⟩ with _ | p
    · rw [hinner, hval]
    · exfalso
      have : g.get idx = some p := by
        unfold Grid.get
        rw [hinner, hval]
        rfl
      rw [hempty] at this
      exact absurd this (by simp)

/-- Session invariant of the active-list algorithm: a well-formed separated
grid, and an active set referencing only occupied cells. -/
structure AlgWF (st : RobertBridson) : Prop where
  gridWF : GridWF st.grid
  gridSep : GridSep st.grid
  indicesStored : ∀ i ∈ st.indices, (st.grid.get i).isSome

theorem can_insert_get_cell {g : Grid} {x : Vec2} (ht : g.can_insert x = true) :
    ∃ wh, g.get_cell x = some wh := by
  rcases hc : g.get_cell x with _ | wh
  · rw [Grid.can_insert_none hc] at ht
    exact absurd ht (by simp)
  · exact ⟨wh, rfl⟩

theorem attemptLoop_cases (g : Grid) (d : AnnulusDistribution) (xi : Vec2) :
    ∀ (fuel : Nat) (r : Rng),
      (∃ x idx g' r', attemptLoop g d xi fuel r = .accepted x idx g' r' ∧
        g.can_insert x = true ∧ g.insert x = some (idx, g')) ∨
      (∃ r', attemptLoop g d xi fuel r = .exhausted r') := by
  intro fuel
  induction fuel with
  | zero => intro r; right; exact ⟨r, by simp [attemptLoop]⟩
  | succ n ih =>
    intro r
    by_cases hci : g.can_insert (xi.add (d.sample r).1)
    · left
      obtain ⟨wh, hc⟩ := can_insert_get_cell hci
      obtain ⟨⟨idx, g'⟩, hins⟩ := Option.isSome_iff_exists.mp (Grid.insert_isSome hc)
      exact ⟨xi.add (d.sample r).1, idx, g', (d.sample r).2,
        by simp [attemptLoop, hci, hins], hci, hins⟩
    · have hci' : g.can_insert (xi.add (d.sample r).1) = false := by
        revert hci; cases g.can_insert (xi.add (d.sample r).1) <;> simp
      rcases ih (d.sample r).2 with ⟨x, idx, g', r', hal, hx1, hx2⟩ | ⟨r', hal⟩
      · left
        exact ⟨x, idx, g', r', by simp [attemptLoop, hci', hal], hx1, hx2⟩
      · right
        exact ⟨r', by simp [attemptLoop, hci', hal]⟩

theorem swapRemove_mem {l : List α} {i : Nat} {a : α}
    (h : a ∈ swapRemove l i) : a ∈ l := by
  unfold swapRemove at h
  rcases hl : l.getLast? with _ | b
  · rw [hl] at h; simp at h
  · rw [hl] at h
    have hmem := List.dropLast_subset _ h
    rcases List.mem_or_eq_of_mem_set hmem with hh | hh
    · exact hh
    · subst hh; exact List.mem_of_getLast?_eq_some hl

theorem RobertBridson.next_empty {st : RobertBridson} {r : Rng}
    (h : st.indices = []) : st.next r = some (none, st, r) := by
  rw [RobertBridson.next, dif_pos h]

theorem RobertBridson.next_nonempty {st : RobertBridson} {r : Rng}
    (hne : st.indices ≠ [])
    (hk : (r.genRange st.indices.length).1 < st.indices.length) :
    st.next r =
      match st.grid.get (st.indices.get ⟨(r.genRange st.indices.length).1, hk⟩) with
      | none => none
      | some xi =>
        match attemptLoop st.grid st.annulus_distr xi 30
            (r.genRange st.indices.length).2 with
        | .accepted x index grid r2 =>
          some (some x, { st with grid := grid, indices := st.indices ++ [index] }, r2)
        | .panicked => none
        | .exhausted r2 =>
          RobertBridson.next
            { st with indices := swapRemove st.indices (r.genRange st.indices.length).1 }
            r2 := by
  rw [RobertBridson.next, dif_neg hne]

theorem RobertBridson.next_some {st : RobertBridson} {r : Rng} {xi : Vec2}
    (hne : st.indices ≠ [])
    (hk : (r.genRange st.indices.length).1 < st.indices.length)
    (hxi : st.grid.get
      (st.indices.get ⟨(r.genRange st.indices.length).1, hk⟩) = some xi) :
    st.next r =
      match attemptLoop st.grid st.annulus_distr xi 30
          (r.genRange st.indices.length).2 with
      | .accepted x index grid r2 =>
        some (some x, { st with grid := grid, indices := st.indices ++ [index] }, r2)
      | .panicked => none
      | .exhausted r2 =>
        RobertBridson.next
          { st with indices := swapRemove st.indices (r.genRange st.indices.length).1 }
          r2 := by
  have h0 := RobertBridson.next_nonempty hne hk
  rw [hxi] at h0
  exact h0

/-- Master lemma for `RobertBridson::next` under the session invariant: it
never aborts, preserves the invariant and the grid parameters, never clears
or overwrites an occupied cell, and an emitted point is freshly stored,
strictly inside the box, strictly separated (beyond `radius`, in squared
distance) from every previously stored point, while filling exactly one
empty cell; the termination signal leaves the grid untouched and empties
the active set. -/
theorem next_master_aux :
    ∀ (n : Nat) (st : RobertBridson) (r : Rng),
      st.indices.length ≤ n → AlgWF st →
      ∃ o st' r', st.next r = some (o, st', r') ∧
        AlgWF st' ∧
        st'.grid.radius = st.grid.radius ∧
        st'.grid.bottom_left = st.grid.bottom_left ∧
        st'.grid.top_right = st.grid.top_right ∧
        (∀ i p, st.grid.get i = some p → st'.grid.get i = some p) ∧
        (o = none → st'.grid = st.grid ∧ st'.indices = []) ∧
        (∀ x, o = some x → storedIn st'.grid x ∧ insideBox st.grid x ∧
          (∀ i p, st.grid.get i = some p →
            st.grid.radius * st.grid.radius < (p.sub x).length_squared) ∧
          noneCount st'.grid + 1 = noneCount st.grid) := by
  intro n
  induction n with
  | zero =>
    intro st r hlen hwf
    have hnil : st.indices = [] := List.length_eq_zero.mp (Nat.le_zero.mp hlen)
    exact ⟨none, st, r, RobertBridson.next_empty hnil, hwf, rfl, rfl, rfl,
      fun i p hp => hp, fun _ => ⟨rfl, hnil⟩, fun x hx => absurd hx (by simp)⟩
  | succ n ih =>
    intro st r hlen hwf
    by_cases hnil : st.indices = []
    · exact ⟨none, st, r, RobertBridson.next_empty hnil, hwf, rfl, rfl, rfl,
        fun i p hp => hp, fun _ => ⟨rfl, hnil⟩, fun x hx => absurd hx (by simp)⟩
    · have hk : (r.genRange st.indices.length).1 < st.indices.length :=
        Nat.mod_lt _ (List.length_pos.mpr hnil)
      have hmem : st.indices.get ⟨(r.genRange st.indices.length).1, hk⟩ ∈ st.indices :=
        List.get_mem _ _ hk
      obtain ⟨xi, hxi⟩ :=
        Option.isSome_iff_exists.mp (hwf.indicesStored _ hmem)
      have hstep := RobertBridson.next_some hnil hk hxi
      rcases attemptLoop_cases st.grid st.annulus_distr xi 30
          (r.genRange st.indices.length).2 with
        ⟨x, idx, g', r2, hal, hci, hins⟩ | ⟨r2, hal⟩
      · -- acceptance
        rw [hal] at hstep
        have hstep2 : st.next r = some (some x,
            { st with grid := g', indices := st.indices ++ [idx] }, r2) := hstep
        have hfar := can_insert_far hwf.gridWF hci
        have hidx : st.grid.get_index x = some idx := by
          have hmap := hins
          unfold Grid.insert at hmap
          rw [Option.map_eq_some'] at hmap
          obtain ⟨idx0, hidx0, heq0⟩ := hmap
          rw [Prod.mk.injEq] at heq0
          rw [← heq0.1]
          exact hidx0
        obtain ⟨g'', hins'', hwf'', hsep'', hget'', hother'', hempty'',
          hcount'', hrad'', hcs'', hbl'', htr'', hext'', hlen''⟩ :=
          insert_step hwf.gridWF hwf.gridSep hidx hfar
        have hgeq : g'' = g' := by
          have hcomb := hins''.symm.trans hins
          rw [Option.some.injEq, Prod.mk.injEq] at hcomb
          exact hcomb.2
        subst hgeq
        have hinside : insideBox st.grid x := by
          rw [Grid.get_index, Option.map_eq_some'] at hidx
          obtain ⟨c, hcell, -⟩ := hidx
          exact (Grid.get_cell_eq_some.mp hcell).1
        refine ⟨some x,
          { st with grid := g'', indices := st.indices ++ [idx] }, r2,
          hstep2, ?_, hrad'', hbl'', htr'', ?_, fun hcon => absurd hcon (by simp), ?_⟩
        · refine ⟨hwf'', hsep'', ?_⟩
          intro i hi
          rcases List.mem_append.mp hi with hi | hi
          · obtain ⟨p, hp⟩ := Option.isSome_iff_exists.mp (hwf.indicesStored i hi)
            have hne : i ≠ idx := by
              intro he; subst he; rw [hempty''] at hp; exact absurd hp (by simp)
            simp only
            rw [hother'' i hne, hp]
            rfl
          · have : i = idx := by simpa using hi
            subst this
            simp only
            rw [hget'']
            rfl
        · intro i p hp
          have hne : i ≠ idx := by
            intro he; subst he; rw [hempty''] at hp; exact absurd hp (by simp)
          simp only
          rw [hother'' i hne]
          exact hp
        · intro y hy
          rw [Option.some.injEq] at hy
          subst hy
          exact ⟨⟨idx, hget''⟩, hinside, hfar, hcount''⟩
      · -- exhaustion: recurse on the shrunk active set
        rw [hal] at hstep
        have hstep2 : st.next r = RobertBridson.next
            { st with indices := swapRemove st.indices (r.genRange st.indices.length).1 }
            r2 := hstep
        have hlt := swapRemove_length_lt st.indices
          (r.genRange st.indices.length).1 hnil
        have hwfrm : AlgWF { st with
            indices := swapRemove st.indices (r.genRange st.indices.length).1 } := by
          refine ⟨hwf.gridWF, hwf.gridSep, ?_⟩
          intro i hi
          exact hwf.indicesStored i (swapRemove_mem hi)
        obtain ⟨o, st', r', hnext', hwf', hrad', hbl', htr', hmono', hnone', hemit'⟩ :=
          ih { st with indices := swapRemove st.indices (r.genRange st.indices.length).1 }
            r2 (by simp only [List.length_cons] at hlen ⊢; omega) hwfrm
        rw [hnext'] at hstep2
        exact ⟨o, st', r', hstep2, hwf', hrad', hbl', htr', hmono', hnone', hemit'⟩

theorem next_master (st : RobertBridson) (r : Rng) (hwf : AlgWF st) :
    ∃ o st' r', st.next r = some (o, st', r') ∧
      AlgWF st' ∧
      st'.grid.radius = st.grid.radius ∧
      st'.grid.bottom_left = st.grid.bottom_left ∧
      st'.grid.top_right = st.grid.top_right ∧
      (∀ i p, st.grid.get i = some p → st'.grid.get i = some p) ∧
      (o = none → st'.grid = st.grid ∧ st'.indices = []) ∧
      (∀ x, o = some x → storedIn st'.grid x ∧ insideBox st.grid x ∧
        (∀ i p, st.grid.get i = some p →
          st.grid.radius * st.grid.radius < (p.sub x).length_squared) ∧
        noneCount st'.grid + 1 = noneCount st.grid) :=
  next_master_aux st.indices.length st r (le_refl _) hwf

theorem RobertBridson.next_get_none {st : RobertBridson} {r : Rng}
    (hne : st.indices ≠ [])
    (hk : (r.genRange st.indices.length).1 < st.indices.length)
    (hxi : st.grid.get
      (st.indices.get ⟨(r.genRange st.indices.length).1, hk⟩) = none) :
    st.next r = none := by
  have h0 := RobertBridson.next_nonempty hne hk
  rw [hxi] at h0
  exact h0

/-- A termination signal of `next` always leaves the active set empty
(unconditionally, without any invariant). -/
theorem next_none_aux :
    ∀ (n : Nat) (st : RobertBridson) (r : Rng), st.indices.length ≤ n →
      ∀ o st' r', st.next r = some (o, st', r') → o = none →
        st'.indices = [] := by
  intro n
  induction n with
  | zero =>
    intro st r hlen o st' r' hnext ho
    have hnil : st.indices = [] := List.length_eq_zero.mp (Nat.le_zero.mp hlen)
    rw [RobertBridson.next_empty hnil] at hnext
    simp only [Option.some.injEq, Prod.mk.injEq] at hnext
    obtain ⟨-, hst, -⟩ := hnext
    rw [← hst]
    exact hnil
  | succ n ih =>
    intro st r hlen o st' r' hnext ho
    by_cases hnil : st.indices = []
    · rw [RobertBridson.next_empty hnil] at hnext
      simp only [Option.some.injEq, Prod.mk.injEq] at hnext
      obtain ⟨-, hst, -⟩ := hnext
      rw [← hst]
      exact hnil
    · have hk : (r.genRange st.indices.length).1 < st.indices.length :=
        Nat.mod_lt _ (List.length_pos.mpr hnil)
      rcases hoc : st.grid.get
          (st.indices.get ⟨(r.genRange st.indices.length).1, hk⟩) with _ | xi
      · rw [RobertBridson.next_get_none hnil hk hoc] at hnext
        exact absurd hnext (by simp)
      · have hstep := RobertBridson.next_some hnil hk hoc
        rcases attemptLoop_cases st.grid st.annulus_distr xi 30
            (r.genRange st.indices.length).2 with
          ⟨x, idx, g', r2, hal, -, -⟩ | ⟨r2, hal⟩
        · rw [hal] at hstep
          have hstep2 : st.next r = some (some x,
              { st with grid := g', indices := st.indices ++ [idx] }, r2) := hstep
          rw [hstep2] at hnext
          simp only [Option.some.injEq, Prod.mk.injEq] at hnext
          obtain ⟨hox, -⟩ := hnext
          rw [← hox] at ho
          exact absurd ho (by simp)
        · rw [hal] at hstep
          have hstep2 : st.next r = RobertBridson.next
              { st with
                indices := swapRemove st.indices (r.genRange st.indices.length).1 }
              r2 := hstep
          have hlt := swapRemove_length_lt st.indices
            (r.genRange st.indices.length).1 hnil
          exact ih _ r2 (by simp only [List.length_cons] at hlen ⊢; omega)
            o st' r' (hstep2.symm.trans hnext) ho

/-- Invariant of a wrapper state: the algorithm invariant holds, and a
not-yet-initialised wrapper still has an empty grid and an empty active
set. -/
structure PDInv (pd : PoissonDisk) : Prop where
  algWF : AlgWF pd.poisson_algo
  fresh : pd.init = false →
    (∀ i, pd.poisson_algo.grid.get i = none) ∧ pd.poisson_algo.indices = []

theorem Grid.get_new (radius : ℝ) (bl tr : Vec2) (i : Nat) :
    (Grid.new radius bl tr).get i = none := by
  unfold Grid.get Grid.new
  simp only
  rw [List.getElem?_replicate]
  split <;> rfl

theorem GridWF_new {radius : ℝ} (h : 0 < radius) (bl tr : Vec2) :
    GridWF (Grid.new radius bl tr) := by
  refine ⟨h, rfl, rfl, rfl, by simp [Grid.new], ?_⟩
  intro i p hp
  rw [Grid.get_new] at hp
  exact absurd hp (by simp)

theorem PDInv_new {radius : ℝ} (h : 0 < radius) (bl tr : Vec2) (r : Rng) :
    PDInv (mkSession radius bl tr r) := by
  constructor
  · refine ⟨GridWF_new h bl tr, ?_, ?_⟩
    · intro i j p q hp hq hij
      have hp' : (Grid.new radius bl tr).get i = some p := hp
      rw [Grid.get_new] at hp'
      exact absurd hp' (by simp)
    · intro i hi
      exact absurd hi (List.not_mem_nil i)
  · intro _
    exact ⟨fun i => Grid.get_new radius bl tr i, rfl⟩

theorem PoissonDisk.next_fresh {pd : PoissonDisk} (h : pd.init = false) :
    pd.next = match pd.poisson_algo.init pd.rng with
      | none => none
      | some xsr =>
        some (some xsr.1, { rng := xsr.2.2, poisson_algo := xsr.2.1, init := true }) := by
  unfold PoissonDisk.next
  rw [if_pos h]

theorem PoissonDisk.next_started {pd : PoissonDisk} (h : pd.init = true) :
    pd.next = match pd.poisson_algo.next pd.rng with
      | none => none
      | some osr =>
        some (osr.1, { rng := osr.2.2, poisson_algo := osr.2.1, init := true }) := by
  unfold PoissonDisk.next
  rw [if_neg (by rw [h]; simp)]

theorem RobertBridson.init_cases (st : RobertBridson) (r : Rng) :
    st.init r = match st.grid.insert (r.vecs r.vpos) with
      | none => none
      | some ig => some (r.vecs r.vpos,
          { st with grid := ig.2, indices := st.indices ++ [ig.1] },
          { r with vpos := r.vpos + 1 }) := rfl

/-- One successful pull of the wrapper preserves the invariant, the grid
parameters, and every stored point; an emitted point is freshly stored,
inside the box, strictly separated from everything stored before, and
fills one empty cell; a termination signal leaves the grid unchanged. -/
theorem pd_pull {pd : PoissonDisk} (hinv : PDInv pd) :
    ∀ {o : Option Vec2} {pd' : PoissonDisk}, pd.next = some (o, pd') →
      PDInv pd' ∧ pd'.init = true ∧
      pd'.poisson_algo.grid.radius = pd.poisson_algo.grid.radius ∧
      pd'.poisson_algo.grid.bottom_left = pd.poisson_algo.grid.bottom_left ∧
      pd'.poisson_algo.grid.top_right = pd.poisson_algo.grid.top_right ∧
      (∀ i p, pd.poisson_algo.grid.get i = some p →
        pd'.poisson_algo.grid.get i = some p) ∧
      (∀ x, o = some x → storedIn pd'.poisson_algo.grid x ∧
        insideBox pd.poisson_algo.grid x ∧
        (∀ i p, pd.poisson_algo.grid.get i = some p →
          pd.poisson_algo.grid.radius * pd.poisson_algo.grid.radius <
            (p.sub x).length_squared) ∧
        noneCount pd'.poisson_algo.grid + 1 = noneCount pd.poisson_algo.grid) ∧
      (o = none → pd'.poisson_algo.grid = pd.poisson_algo.grid) := by
  intro o pd' hpull
  cases hinit : pd.init with
  | false =>
    obtain ⟨hemp, hnil⟩ := hinv.fresh hinit
    have hcase := RobertBridson.init_cases pd.poisson_algo pd.rng
    rcases hins : pd.poisson_algo.grid.insert (pd.rng.vecs pd.rng.vpos) with _ | ig
    · rw [hins] at hcase
      have hred : pd.poisson_algo.init pd.rng = none := hcase
      rw [PoissonDisk.next_fresh hinit, hred] at hpull
      exact absurd hpull (by simp)
    · obtain ⟨idx, g'⟩ := ig
      rw [hins] at hcase
      have hred : pd.poisson_algo.init pd.rng = some (pd.rng.vecs pd.rng.vpos,
          { pd.poisson_algo with grid := g', indices := pd.poisson_algo.indices ++ [idx] },
          { pd.rng with vpos := pd.rng.vpos + 1 }) := hcase
      rw [PoissonDisk.next_fresh hinit, hred] at hpull
      have hpull2 : some (some (pd.rng.vecs pd.rng.vpos),
          (⟨{ pd.rng with vpos := pd.rng.vpos + 1 },
            { pd.poisson_algo with grid := g', indices := pd.poisson_algo.indices ++ [idx] },
            true⟩ : PoissonDisk)) = some (o, pd') := hpull
      simp only [Option.some.injEq, Prod.mk.injEq] at hpull2
      obtain ⟨ho, hpd⟩ := hpull2
      subst hpd
      have hidx : pd.poisson_algo.grid.get_index (pd.rng.vecs pd.rng.vpos) =
          some idx := by
        have hmap := hins
        unfold Grid.insert at hmap
        rw [Option.map_eq_some'] at hmap
        obtain ⟨idx0, hidx0, heq0⟩ := hmap
        rw [Prod.mk.injEq] at heq0
        rw [← heq0.1]
        exact hidx0
      have hfar : ∀ i p, pd.poisson_algo.grid.get i = some p →
          pd.poisson_algo.grid.radius * pd.poisson_algo.grid.radius <
            (p.sub (pd.rng.vecs pd.rng.vpos)).length_squared := by
        intro i p hp
        rw [hemp i] at hp
        exact absurd hp (by simp)
      obtain ⟨g'', hins'', hwf'', hsep'', hget'', hother'', hempty'',
        hcount'', hrad'', hcs'', hbl'', htr'', hext'', hlen''⟩ :=
        insert_step hinv.algWF.gridWF hinv.algWF.gridSep hidx hfar
      have hgeq : g'' = g' := by
        have hcomb := hins''.symm.trans hins
        rw [Option.some.injEq, Prod.mk.injEq] at hcomb
        exact hcomb.2
      subst hgeq
      have hinside : insideBox pd.poisson_algo.grid (pd.rng.vecs pd.rng.vpos) := by
        rw [Grid.get_index, Option.map_eq_some'] at hidx
        obtain ⟨c, hcell, -⟩ := hidx
        exact (Grid.get_cell_eq_some.mp hcell).1
      refine ⟨⟨⟨hwf'', hsep'', ?_⟩, fun hcon => absurd hcon (by simp)⟩, rfl,
        hrad'', hbl'', htr'', ?_, ?_, ?_⟩
      · intro i hi
        simp only [hnil, List.nil_append, List.mem_singleton] at hi
        subst hi
        simp only
        rw [hget'']
        rfl
      · intro i p hp
        rw [hemp i] at hp
        exact absurd hp (by simp)
      · intro x hx
        rw [← ho, Option.some.injEq] at hx
        subst hx
        exact ⟨⟨idx, hget''⟩, hinside, hfar, hcount''⟩
      · intro hcon
        rw [← ho] at hcon
        exact absurd hcon (by simp)
  | true =>
    obtain ⟨o2, st', r', hnext, hwf', hrad', hbl', htr', hmono', hnone', hemit'⟩ :=
      next_master pd.poisson_algo pd.rng hinv.algWF
    rw [PoissonDisk.next_started hinit, hnext] at hpull
    have hpull2 : some (o2, ({ rng := r', poisson_algo := st', init := true } :
        PoissonDisk)) = some (o, pd') := hpull
    simp only [Option.some.injEq, Prod.mk.injEq] at hpull2
    obtain ⟨ho, hpd⟩ := hpull2
    subst hpd
    subst ho
    refine ⟨⟨hwf', fun hcon => absurd hcon (by simp)⟩, rfl,
      hrad', hbl', htr', hmono', hemit', ?_⟩
    intro hnone
    exact (hnone' hnone).1

theorem runPulls_zero (pd : PoissonDisk) : runPulls pd 0 = some ([], pd) := rfl

theorem runPulls_succ (pd : PoissonDisk) (n : Nat) :
    runPulls pd (n + 1) = match pd.next with
      | none => none
      | some opd =>
        match runPulls opd.2 n with
        | none => none
        | some xspd => some (opd.1.toList ++ xspd.1, xspd.2) := rfl

/-- Trace lemma: over any number of pulls from an invariant-satisfying
wrapper state, the collected emissions are pairwise strictly separated
(beyond `radius`, in squared distance), each lies strictly inside the box
and beyond `radius` of everything already stored at the start, each is
stored at the end, and the number of emissions is bounded by the number of
initially empty cells. -/
theorem trace_lemma :
    ∀ (n : Nat) (pd : PoissonDisk), PDInv pd →
      ∀ xs pd', runPulls pd n = some (xs, pd') →
        PDInv pd' ∧
        pd'.poisson_algo.grid.radius = pd.poisson_algo.grid.radius ∧
        pd'.poisson_algo.grid.bottom_left = pd.poisson_algo.grid.bottom_left ∧
        pd'.poisson_algo.grid.top_right = pd.poisson_algo.grid.top_right ∧
        (∀ i p, pd.poisson_algo.grid.get i = some p →
          pd'.poisson_algo.grid.get i = some p) ∧
        (∀ p, p ∈ xs → storedIn pd'.poisson_algo.grid p ∧
          insideBox pd.poisson_algo.grid p ∧
          (∀ i q, pd.poisson_algo.grid.get i = some q →
            pd.poisson_algo.grid.radius * pd.poisson_algo.grid.radius <
              (q.sub p).length_squared)) ∧
        List.Pairwise (fun p q =>
          pd.poisson_algo.grid.radius * pd.poisson_algo.grid.radius <
            (p.sub q).length_squared) xs ∧
        xs.length + noneCount pd'.poisson_algo.grid ≤
          noneCount pd.poisson_algo.grid := by
  intro n
  induction n with
  | zero =>
    intro pd hinv xs pd' h
    rw [runPulls_zero] at h
    simp only [Option.some.injEq, Prod.mk.injEq] at h
    obtain ⟨hxs, hpd⟩ := h
    subst hxs
    subst hpd
    exact ⟨hinv, rfl, rfl, rfl, fun i p hp => hp, fun p hp => absurd hp (by simp),
      List.Pairwise.nil, by simp⟩
  | succ n ih =>
    intro pd hinv xs pd' h
    rw [runPulls_succ] at h
    rcases hpull : pd.next with _ | opd1
    · rw [hpull] at h
      exact absurd h (by simp)
    · obtain ⟨o, pd1⟩ := opd1
      rw [hpull] at h
      have h2 : (match runPulls pd1 n with
          | none => none
          | some xspd => some (o.toList ++ xspd.1, xspd.2)) = some (xs, pd') := h
      rcases hrec : runPulls pd1 n with _ | xspd2
      · rw [hrec] at h2
        exact absurd h2 (by simp)
      · obtain ⟨xs1, pd2⟩ := xspd2
        rw [hrec] at h2
        have h3 : some (o.toList ++ xs1, pd2) = some (xs, pd') := h2
        simp only [Option.some.injEq, Prod.mk.injEq] at h3
        obtain ⟨hxs, hpd⟩ := h3
        subst hxs
        subst hpd
        obtain ⟨hinv1, -, hrad1, hbl1, htr1, hmono1, hemit1, hnone1⟩ :=
          pd_pull hinv hpull
        obtain ⟨hinv2, hrad2, hbl2, htr2, hmono2, hpts2, hpair2, hcount2⟩ :=
          ih pd1 hinv1 xs1 pd2 hrec
        have hradc : pd2.poisson_algo.grid.radius = pd.poisson_algo.grid.radius :=
          hrad2.trans hrad1
        refine ⟨hinv2, hradc, hbl2.trans hbl1, htr2.trans htr1,
          fun i p hp => hmono2 i p (hmono1 i p hp), ?_, ?_, ?_⟩
        · intro p hp
          rcases List.mem_append.mp hp with hp | hp
          · -- p is this pull's emission
            rcases ho : o with _ | x
            · rw [ho] at hp; exact absurd hp (by simp)
            · rw [ho] at hp
              simp only [Option.toList_some, List.mem_singleton] at hp
              subst hp
              obtain ⟨hstored, hinside, hsep, -⟩ := hemit1 p ho
              refine ⟨?_, hinside, hsep⟩
              obtain ⟨i, hi⟩ := hstored
              exact ⟨i, hmono2 i p hi⟩
          · obtain ⟨hstored, hinside, hsep⟩ := hpts2 p hp
            refine ⟨hstored, ?_, ?_⟩
            · unfold insideBox at hinside ⊢
              rw [hbl1, htr1] at hinside
              exact hinside
            · intro i q hq
              have := hsep i q (hmono1 i q hq)
              rw [hrad1] at this
              exact this
        · rcases ho : o with _ | x
          · simpa using hpair2.imp (fun {a b} hab => by rw [← hrad1]; exact hab)
          · simp only [Option.toList_some, List.singleton_append]
            constructor
            · intro q hq
              obtain ⟨hstored, -, -, -⟩ := hemit1 x ho
              obtain ⟨i, hi⟩ := hstored
              have := (hpts2 q hq).2.2 i x hi
              rw [hrad1] at this
              exact this
            · exact hpair2.imp (fun {a b} hab => by rw [← hrad1]; exact hab)
        · rcases ho : o with _ | x
          · have hgeq := hnone1 ho
            have : noneCount pd1.poisson_algo.grid = noneCount pd.poisson_algo.grid := by
              rw [hgeq]
            simp only [ho, Option.toList_none, List.nil_append]
            omega
          · obtain ⟨-, -, -, hcnt⟩ := hemit1 x ho
            simp only [ho, Option.toList_some, List.singleton_append, List.length_cons]
            omega

/-- Wrapper states reachable in a session: a freshly constructed session
with a positive radius, and anything obtained from a reachable state by a
successful pull. -/
inductive PDReachable : PoissonDisk → Prop where
  | base (radius : ℝ) (bl tr : Vec2) (r : Rng) (h : 0 < radius) :
      PDReachable (mkSession radius bl tr r)
  | step (pd pd' : PoissonDisk) (o : Option Vec2) :
      PDReachable pd → pd.next = some (o, pd') → PDReachable pd'

theorem reachable_inv {pd : PoissonDisk} (h : PDReachable pd) : PDInv pd := by
  induction h with
  | base radius bl tr r h => exact PDInv_new h bl tr r
  | step pd pd' o hr hpull ih => exact (pd_pull ih hpull).1

theorem Rng.bumpU_add (r : Rng) (a b : Nat) :
    (r.bumpU a).bumpU b = r.bumpU (a + b) := by
  unfold Rng.bumpU
  rw [Nat.add_assoc]

theorem Rng.bumpU_zero (r : Rng) : r.bumpU 0 = r := rfl

theorem AnnulusDistribution.sample_rng (d : AnnulusDistribution) (r : Rng) :
    (d.sample r).2 = r.bumpU 2 := rfl

/-- The `j`-th candidate point drawn around the active point `xi` by the
proposal loop when the oracle starts at `r`: every annulus sample consumes
exactly two unit draws. -/
noncomputable def nthCandidate (d : AnnulusDistribution) (xi : Vec2) (r : Rng)
    (j : Nat) : Vec2 :=
  xi.add ((d.sample (r.bumpU (2 * j))).1)

theorem attemptLoop_all_fail (g : Grid) (d : AnnulusDistribution) (xi : Vec2) :
    ∀ (fuel : Nat) (r : Rng),
      (∀ j, j < fuel → g.can_insert (nthCandidate d xi r j) = false) →
      attemptLoop g d xi fuel r = .exhausted (r.bumpU (2 * fuel)) := by
  intro fuel
  induction fuel with
  | zero =>
    intro r h
    rfl
  | succ n ih =>
    intro r h
    have h0 := h 0 (Nat.succ_pos n)
    have h0' : g.can_insert (xi.add ((d.sample r).1)) = false := by
      unfold nthCandidate at h0
      rw [Nat.mul_zero, Rng.bumpU_zero] at h0
      exact h0
    have hrec := ih (r.bumpU 2) (by
      intro j hj
      have hh := h (j + 1) (by omega)
      unfold nthCandidate at hh ⊢
      rw [Rng.bumpU_add]
      rw [show 2 + 2 * j = 2 * (j + 1) by ring]
      exact hh)
    show attemptLoop g d xi (n + 1) r = _
    rw [show attemptLoop g d xi (n + 1) r =
      attemptLoop g d xi n ((d.sample r).2) by simp [attemptLoop, h0']]
    rw [AnnulusDistribution.sample_rng, hrec, Rng.bumpU_add]
    congr 1
    ring_nf

theorem attemptLoop_first_success (g : Grid) (d : AnnulusDistribution) (xi : Vec2) :
    ∀ (fuel j0 : Nat) (r : Rng), j0 < fuel →
      g.can_insert (nthCandidate d xi r j0) = true →
      (∀ j, j < j0 → g.can_insert (nthCandidate d xi r j) = false) →
      ∀ idx g', g.insert (nthCandidate d xi r j0) = some (idx, g') →
        attemptLoop g d xi fuel r =
          .accepted (nthCandidate d xi r j0) idx g' (r.bumpU (2 * (j0 + 1))) := by
  intro fuel
  induction fuel with
  | zero => intro j0 r hj0; omega
  | succ n ih =>
    intro j0 r hj0 hyes hno idx g' hins
    cases j0 with
    | zero =>
      have hyes' : g.can_insert (xi.add ((d.sample r).1)) = true := by
        unfold nthCandidate at hyes
        rw [Nat.mul_zero, Rng.bumpU_zero] at hyes
        exact hyes
      have hins' : g.insert (xi.add ((d.sample r).1)) = some (idx, g') := by
        unfold nthCandidate at hins
        rw [Nat.mul_zero, Rng.bumpU_zero] at hins
        exact hins
      show attemptLoop g d xi (n + 1) r = _
      rw [show attemptLoop g d xi (n + 1) r =
        AttemptResult.accepted (xi.add ((d.sample r).1)) idx g' ((d.sample r).2) by
          simp [attemptLoop, hyes', hins']]
      rw [AnnulusDistribution.sample_rng]
      unfold nthCandidate
      rw [Nat.mul_zero, Rng.bumpU_zero]
    | succ j1 =>
      have h0 := hno 0 (Nat.succ_pos j1)
      have h0' : g.can_insert (xi.add ((d.sample r).1)) = false := by
        unfold nthCandidate at h0
        rw [Nat.mul_zero, Rng.bumpU_zero] at h0
        exact h0
      have hshift : ∀ j : Nat, nthCandidate d xi (r.bumpU 2) j =
          nthCandidate d xi r (j + 1) := by
        intro j
        unfold nthCandidate
        rw [Rng.bumpU_add]
        rw [show 2 + 2 * j = 2 * (j + 1) by ring]
      have hrec := ih j1 (r.bumpU 2) (by omega)
        (by rw [hshift]; exact hyes)
        (by intro j hj; rw [hshift]; exact hno (j + 1) (by omega))
        idx g' (by rw [hshift]; exact hins)
      show attemptLoop g d xi (n + 1) r = _
      rw [show attemptLoop g d xi (n + 1) r =
        attemptLoop g d xi n ((d.sample r).2) by simp [attemptLoop, h0']]
      rw [AnnulusDistribution.sample_rng, hrec, hshift, Rng.bumpU_add]
      congr 2
      ring_nf

theorem sqrt2_pos : 0 < Real.sqrt 2 := Real.sqrt_pos.mpr (by norm_num)

theorem sqrt2_ne : Real.sqrt 2 ≠ 0 := ne_of_gt sqrt2_pos

/-- A concrete deterministic oracle used to exercise the definitions. -/
noncomputable def rngA : Rng :=
  { units := fun _ => 1, nats := fun _ => 0, vecs := fun _ => ⟨1, 1⟩,
    upos := 0, npos := 0, vpos := 0 }

/-- A concrete grid: radius `sqrt 2` over the box `(0,0) - (4,4)`, so that
`cell_size = 1` and the grid is `4 x 4`. -/
noncomputable def demoGrid : Grid := Grid.new (Real.sqrt 2) ⟨0, 0⟩ ⟨4, 4⟩

theorem demoGrid_cs : demoGrid.cell_size = 1 := by
  show Real.sqrt 2 / Real.sqrt 2 = 1
  exact div_self sqrt2_ne

theorem demoGrid_bl : demoGrid.bottom_left = ⟨0, 0⟩ := rfl

theorem demoGrid_tr : demoGrid.top_right = ⟨4, 4⟩ := rfl

theorem demoGrid_radius : demoGrid.radius = Real.sqrt 2 := rfl

theorem demoGrid_extent : demoGrid.extent = (4, 4) := by
  show ((⌈((4:ℝ) - (0:ℝ)) / (Real.sqrt 2 / Real.sqrt 2)⌉).toNat,
        (⌈((4:ℝ) - (0:ℝ)) / (Real.sqrt 2 / Real.sqrt 2)⌉).toNat) = (4, 4)
  rw [div_self sqrt2_ne]
  norm_num
  decide

theorem demoGridWF : GridWF demoGrid := GridWF_new sqrt2_pos _ _

theorem demoGrid_empty : ∀ i, demoGrid.get i = none :=
  Grid.get_new (Real.sqrt 2) ⟨0, 0⟩ ⟨4, 4⟩

theorem demoGrid_cell : demoGrid.get_cell ⟨1, 1⟩ = some (1, 1) := by
  apply Grid.get_cell_eq_some.mpr
  constructor
  · refine ⟨?_, ?_, ?_, ?_⟩ <;> simp only [demoGrid_bl, demoGrid_tr] <;> norm_num
  · simp only [demoGrid_bl, demoGrid_cs]
    norm_num [Int.floor_one, Int.toNat_one]

theorem demoGrid_index : demoGrid.get_index ⟨1, 1⟩ = some 5 := by
  rw [Grid.get_index, demoGrid_cell]
  simp [demoGrid_extent]

/-- Once a pull signals termination, the resulting state is a fixed point:
every further pull signals termination with no state change. -/
theorem pd_stable {pd pd' : PoissonDisk} (h : pd.next = some (none, pd')) :
    pd'.next = some (none, pd') := by
  cases hinit : pd.init with
  | false =>
    have hcase := RobertBridson.init_cases pd.poisson_algo pd.rng
    rcases hins : pd.poisson_algo.grid.insert (pd.rng.vecs pd.rng.vpos) with _ | ig
    · rw [hins] at hcase
      have hred : pd.poisson_algo.init pd.rng = none := hcase
      rw [PoissonDisk.next_fresh hinit, hred] at h
      exact absurd h (by simp)
    · obtain ⟨idx, g'⟩ := ig
      rw [hins] at hcase
      have hred : pd.poisson_algo.init pd.rng = some (pd.rng.vecs pd.rng.vpos,
          { pd.poisson_algo with grid := g', indices := pd.poisson_algo.indices ++ [idx] },
          { pd.rng with vpos := pd.rng.vpos + 1 }) := hcase
      rw [PoissonDisk.next_fresh hinit, hred] at h
      have h2 : some (some (pd.rng.vecs pd.rng.vpos),
          (⟨{ pd.rng with vpos := pd.rng.vpos + 1 },
            { pd.poisson_algo with grid := g', indices := pd.poisson_algo.indices ++ [idx] },
            true⟩ : PoissonDisk)) = some (none, pd') := h
      simp only [Option.some.injEq, Prod.mk.injEq] at h2
      exact absurd h2.1 (by simp)
  | true =>
    rcases hnext : pd.poisson_algo.next pd.rng with _ | osr
    · rw [PoissonDisk.next_started hinit, hnext] at h
      exact absurd h (by simp)
    · obtain ⟨o2, st', r'⟩ := osr
      rw [PoissonDisk.next_started hinit, hnext] at h
      have h2 : some (o2, (⟨r', st', true⟩ : PoissonDisk)) = some (none, pd') := h
      simp only [Option.some.injEq, Prod.mk.injEq] at h2
      obtain ⟨ho2, hpd⟩ := h2
      subst ho2
      have hidx : st'.indices = [] :=
        next_none_aux pd.poisson_algo.indices.length pd.poisson_algo pd.rng
          (le_refl _) none st' r' hnext rfl
      rw [← hpd]
      rw [PoissonDisk.next_started rfl, RobertBridson.next_empty hidx]

/-- The demo session: radius `sqrt 2` over the `(0,0) - (4,4)` box with the
concrete oracle `rngA`. -/
noncomputable def demoSession : PoissonDisk :=
  mkSession (Real.sqrt 2) ⟨0, 0⟩ ⟨4, 4⟩ rngA

/-- The grid after the demo session's seed point `(1,1)` went into cell 5. -/
noncomputable def demoGrid1 : Grid :=
  { demoGrid with inner := demoGrid.inner.set 5 (some ⟨1, 1⟩) }

/-- The algorithm state after the demo session's first pull. -/
noncomputable def demoAlgo1 : RobertBridson :=
  { demoSession.poisson_algo with grid := demoGrid1, indices := [5] }

/-- The wrapper state after the demo session's first pull. -/
noncomputable def demoPD1 : PoissonDisk := ⟨{ rngA with vpos := 1 }, demoAlgo1, true⟩

theorem demoGrid_insert : demoGrid.insert ⟨1, 1⟩ = some (5, demoGrid1) :=
  Grid.insert_eq demoGrid_index

theorem demo_init : demoSession.poisson_algo.init demoSession.rng =
    some (⟨1, 1⟩, demoAlgo1, { rngA with vpos := 1 }) := by
  have hcase := RobertBridson.init_cases demoSession.poisson_algo demoSession.rng
  rw [show demoSession.poisson_algo.grid.insert
      (demoSession.rng.vecs demoSession.rng.vpos) = some (5, demoGrid1)
    from demoGrid_insert] at hcase
  exact hcase

theorem demoSession_pull : demoSession.next = some (some ⟨1, 1⟩, demoPD1) := by
  rw [PoissonDisk.next_fresh (show demoSession.init = false from rfl), demo_init]
  rfl

theorem demoSession_run1 : runPulls demoSession 1 = some ([⟨1, 1⟩], demoPD1) := by
  rw [runPulls_succ, demoSession_pull]
  rfl

theorem demoGrid_len : demoGrid.inner.length = 16 := by
  rw [demoGridWF.inner_len, demoGrid_extent]
  rfl

theorem demoGrid1_get5 : demoGrid1.get 5 = some ⟨1, 1⟩ :=
  Grid.get_set_self (by rw [demoGrid_len]; norm_num)

theorem demoPD1_inv : PDInv demoPD1 :=
  (pd_pull (PDInv_new sqrt2_pos ⟨0, 0⟩ ⟨4, 4⟩ rngA) demoSession_pull).1

theorem demoPD1_reachable : PDReachable demoPD1 :=
  PDReachable.step demoSession demoPD1 (some ⟨1, 1⟩)
    (PDReachable.base (Real.sqrt 2) ⟨0, 0⟩ ⟨4, 4⟩ rngA sqrt2_pos) demoSession_pull

/-- A terminated wrapper state: initialised, with an empty active set. -/
noncomputable def demoPDE : PoissonDisk :=
  ⟨rngA, RobertBridson.new (Real.sqrt 2) ⟨0, 0⟩ ⟨4, 4⟩, true⟩

theorem demoPDE_stable : demoPDE.next = some (none, demoPDE) := by
  rw [PoissonDisk.next_started rfl, RobertBridson.next_empty rfl]
  rfl

/-- An oracle whose domain draw lands exactly on the bottom-left corner of
the box, exhibiting the boundary-abort path of `init`. -/
noncomputable def rngZ : Rng :=
  { units := fun _ => 0, nats := fun _ => 0, vecs := fun _ => ⟨0, 0⟩,
    upos := 0, npos := 0, vpos := 0 }

theorem clamp01_nonneg (u : ℝ) : 0 ≤ clamp01 u := le_max_left _ _

theorem clamp01_le_one (u : ℝ) : clamp01 u ≤ 1 :=
  max_le (by norm_num) (min_le_left _ _)

theorem annulus_norm_sq (d : AnnulusDistribution) (r : Rng)
    (h : 0 ≤ (d.radius.sample r).1) :
    ((d.sample r).1).length_squared = (d.radius.sample r).1 := by
  show (Real.sqrt (d.radius.sample r).1 *
          Real.cos ((d.angle.sample ((d.radius.sample r).2)).1)) *
        (Real.sqrt (d.radius.sample r).1 *
          Real.cos ((d.angle.sample ((d.radius.sample r).2)).1)) +
      (Real.sqrt (d.radius.sample r).1 *
          Real.sin ((d.angle.sample ((d.radius.sample r).2)).1)) *
        (Real.sqrt (d.radius.sample r).1 *
          Real.sin ((d.angle.sample ((d.radius.sample r).2)).1)) =
      (d.radius.sample r).1
  have h1 := Real.mul_self_sqrt h
  have h2 := Real.sin_sq_add_cos_sq ((d.angle.sample ((d.radius.sample r).2)).1)
  nlinarith [h1, h2]

theorem uniformR_sample_mem {a b : ℝ} (h : a ≤ b) (r : Rng) :
    a ≤ (UniformR.sample ⟨a, b⟩ r).1 ∧ (UniformR.sample ⟨a, b⟩ r).1 ≤ b := by
  show a ≤ a + (b - a) * clamp01 (r.units r.upos) ∧
    a + (b - a) * clamp01 (r.units r.upos) ≤ b
  have h0 := clamp01_nonneg (r.units r.upos)
  have h1 := clamp01_le_one (r.units r.upos)
  constructor <;> nlinarith

/-- Euclidean distance between two points, as the square root of the
squared length of their difference. -/
noncomputable def euclidDist (p q : Vec2) : ℝ :=
  Real.sqrt ((p.sub q).length_squared)

/-- C1: for every session and for all pairs of distinct points emitted by
the algorithm (the `init` point and every point returned by `next`), their
Euclidean distance is at least `radius`. -/
theorem c1_min_separation (radius : ℝ) (bl tr : Vec2) (r : Rng) (n : Nat)
    (xs : List Vec2) (pd' : PoissonDisk) (hrad : 0 < radius)
    (hrun : runPulls (mkSession radius bl tr r) n = some (xs, pd')) :
    List.Pairwise (fun p q => radius ≤ euclidDist p q) xs := by
  obtain ⟨-, -, -, -, -, -, hpair, -⟩ :=
    trace_lemma n _ (PDInv_new hrad bl tr r) xs pd' hrun
  refine hpair.imp ?_
  intro p q hpq
  have hpq' : radius * radius < (p.sub q).length_squared := hpq
  unfold euclidDist
  calc radius = Real.sqrt (radius * radius) := (Real.sqrt_mul_self hrad.le).symm
    _ ≤ Real.sqrt ((p.sub q).length_squared) := Real.sqrt_le_sqrt hpq'.le

theorem c1_min_separation_witness :
    (0 < Real.sqrt 2 ∧
      runPulls (mkSession (Real.sqrt 2) ⟨0, 0⟩ ⟨4, 4⟩ rngA) 1 =
        some ([⟨1, 1⟩], demoPD1)) ∧
    List.Pairwise (fun p q => Real.sqrt 2 ≤ euclidDist p q) [(⟨1, 1⟩ : Vec2)] :=
  ⟨⟨sqrt2_pos, demoSession_run1⟩,
    c1_min_separation (Real.sqrt 2) ⟨0, 0⟩ ⟨4, 4⟩ rngA 1 [⟨1, 1⟩] demoPD1
      sqrt2_pos demoSession_run1⟩

/-- C2: every point emitted in a session (by `init` or by `next`) lies
strictly inside the open box `(bottom_left, top_right)` on both axes; a
point on or outside any of the four boundaries is never emitted. -/
theorem c2_containment (radius : ℝ) (bl tr : Vec2) (r : Rng) (n : Nat)
    (xs : List Vec2) (pd' : PoissonDisk) (hrad : 0 < radius)
    (hrun : runPulls (mkSession radius bl tr r) n = some (xs, pd')) :
    ∀ p ∈ xs, bl.x < p.x ∧ p.x < tr.x ∧ bl.y < p.y ∧ p.y < tr.y := by
  obtain ⟨-, -, -, -, -, hpts, -, -⟩ :=
    trace_lemma n _ (PDInv_new hrad bl tr r) xs pd' hrun
  intro p hp
  exact (hpts p hp).2.1

theorem c2_containment_witness :
    (0 < Real.sqrt 2 ∧
      runPulls (mkSession (Real.sqrt 2) ⟨0, 0⟩ ⟨4, 4⟩ rngA) 1 =
        some ([⟨1, 1⟩], demoPD1)) ∧
    ∀ p ∈ [(⟨1, 1⟩ : Vec2)], (0:ℝ) < p.x ∧ p.x < 4 ∧ (0:ℝ) < p.y ∧ p.y < 4 :=
  ⟨⟨sqrt2_pos, demoSession_run1⟩,
    c2_containment (Real.sqrt 2) ⟨0, 0⟩ ⟨4, 4⟩ rngA 1 [⟨1, 1⟩] demoPD1
      sqrt2_pos demoSession_run1⟩

/-- C3: for every session, the sequence of points produced by pulling the
wrapper is finite — the number of emitted points over any number of pulls
is bounded by the (fixed) number of grid cells — and after the first pull
that signals termination, every subsequent pull also signals termination
with no state change (the post-termination state is a fixed point of
pulling). -/
theorem c3_termination :
    (∀ (radius : ℝ) (bl tr : Vec2) (r : Rng) (n : Nat) (xs : List Vec2)
        (pd' : PoissonDisk), 0 < radius →
      runPulls (mkSession radius bl tr r) n = some (xs, pd') →
      xs.length ≤ (mkSession radius bl tr r).poisson_algo.grid.inner.length) ∧
    (∀ pd pd' : PoissonDisk, pd.next = some (none, pd') →
      pd'.next = some (none, pd')) := by
  constructor
  · intro radius bl tr r n xs pd' hrad hrun
    obtain ⟨-, -, -, -, -, -, -, hcount⟩ :=
      trace_lemma n _ (PDInv_new hrad bl tr r) xs pd' hrun
    have hle := List.countP_le_length
      (p := fun o => o.isNone) (l := (mkSession radius bl tr r).poisson_algo.grid.inner)
    unfold noneCount at hcount
    omega
  · exact fun pd pd' h => pd_stable h

theorem c3_termination_witness :
    (0 < Real.sqrt 2 ∧
      runPulls (mkSession (Real.sqrt 2) ⟨0, 0⟩ ⟨4, 4⟩ rngA) 1 =
        some ([⟨1, 1⟩], demoPD1) ∧
      demoPDE.next = some (none, demoPDE)) ∧
    [(⟨1, 1⟩ : Vec2)].length ≤
      (mkSession (Real.sqrt 2) ⟨0, 0⟩ ⟨4, 4⟩ rngA).poisson_algo.grid.inner.length ∧
    demoPDE.next = some (none, demoPDE) :=
  ⟨⟨sqrt2_pos, demoSession_run1, demoPDE_stable⟩,
    c3_termination.1 (Real.sqrt 2) ⟨0, 0⟩ ⟨4, 4⟩ rngA 1 [⟨1, 1⟩] demoPD1
      sqrt2_pos demoSession_run1,
    c3_termination.2 demoPDE demoPDE demoPDE_stable⟩

/-- C4: `can_insert(pos)` returns `false` if `pos` is on or outside the box
boundary; otherwise it returns `false` exactly when some occupied cell in
the scanned neighbourhood holds a point whose squared Euclidean distance to
`pos` is within `radius^2`, and `true` otherwise. -/
theorem c4_can_insert_spec (g : Grid) (x : Vec2) :
    (g.get_cell x = none → g.can_insert x = false) ∧
    (∀ w h, g.get_cell x = some (w, h) →
      (g.can_insert x = false ↔ ScannedHit g x w h)) :=
  ⟨Grid.can_insert_none, fun _ _ hc => can_insert_false_iff hc⟩

theorem c4_can_insert_spec_witness :
    demoGrid.get_cell ⟨1, 1⟩ = some (1, 1) ∧
    (demoGrid.can_insert ⟨1, 1⟩ = false ↔ ScannedHit demoGrid ⟨1, 1⟩ 1 1) :=
  ⟨demoGrid_cell, (c4_can_insert_spec demoGrid ⟨1, 1⟩).2 1 1 demoGrid_cell⟩

theorem ceil_cell_size_sqrt2 (bl tr : Vec2) :
    ⌈1 / (Grid.new (Real.sqrt 2) bl tr).cell_size⌉ = 1 := by
  rw [show (Grid.new (Real.sqrt 2) bl tr).cell_size = 1 from div_self sqrt2_ne]
  norm_num

/-- C5: the neighbourhood half-width used by `can_insert` is computed as
`2 * (ceil (1 / cell_size) + 1)` cells, a function of the numeric value of
`cell_size` rather than a fixed constant.  Under the machine-integer
semantics of the source (`scanHalfWidthM`: saturating float-to-`isize`
cast, release-mode wrapping `isize` arithmetic), in the non-overflowing
regime it agrees with that formula and with the idealized `scanHalfWidth`
embedded in `can_insert`, it over-scans relative to the fixed 2-cell
half-width the geometry requires (some positive radius gives a half-width
above 2), and for some positive radius the wrapping arithmetic drives the
half-width below 2 (under-scan). -/
theorem c5_scan_half_width_machine (bl tr : Vec2) :
    (∀ radius : ℝ, 0 < radius →
      ⌈1 / (Grid.new radius bl tr).cell_size⌉ ≤ 2 ^ 62 - 2 →
      scanHalfWidthM (Grid.new radius bl tr) =
        scanHalfWidth (Grid.new radius bl tr) ∧
      scanHalfWidth (Grid.new radius bl tr) =
        2 * (⌈1 / (Grid.new radius bl tr).cell_size⌉ + 1)) ∧
    (∃ radius : ℝ, 0 < radius ∧
      2 < scanHalfWidthM (Grid.new radius bl tr)) ∧
    (∃ radius : ℝ, 0 < radius ∧
      scanHalfWidthM (Grid.new radius bl tr) < 2) := by
  have e62 : (2 : ℤ) ^ 62 = 4611686018427387904 := by norm_num
  have e63 : (2 : ℤ) ^ 63 = 9223372036854775808 := by norm_num
  have e64 : (2 : ℤ) ^ 64 = 18446744073709551616 := by norm_num
  have key : ∀ radius : ℝ, 0 < radius →
      ⌈1 / (Grid.new radius bl tr).cell_size⌉ ≤ 2 ^ 62 - 2 →
      scanHalfWidthM (Grid.new radius bl tr) =
        2 * (⌈1 / (Grid.new radius bl tr).cell_size⌉ + 1) := by
    intro radius hrad hb
    have hcs : 0 < (Grid.new radius bl tr).cell_size := (GridWF_new hrad bl tr).cs_pos
    have hc0 : 0 < ⌈1 / (Grid.new radius bl tr).cell_size⌉ :=
      Int.ceil_pos.mpr (by positivity)
    unfold scanHalfWidthM satCast64 wrap64
    simp only [e62, e63, e64] at hb ⊢
    split_ifs <;> omega
  refine ⟨?_, ?_, ?_⟩
  · intro radius hrad hb
    exact ⟨key radius hrad hb, rfl⟩
  · refine ⟨Real.sqrt 2, sqrt2_pos, ?_⟩
    have hceil := ceil_cell_size_sqrt2 bl tr
    have hM := key (Real.sqrt 2) sqrt2_pos (by rw [hceil]; norm_num)
    rw [hM, hceil]
    norm_num
  · refine ⟨Real.sqrt 2 / 2 ^ 62, by positivity, ?_⟩
    have hcs3 : (Grid.new (Real.sqrt 2 / 2 ^ 62) bl tr).cell_size =
        1 / 2 ^ 62 := by
      show (Real.sqrt 2 / 2 ^ 62) / Real.sqrt 2 = 1 / 2 ^ 62
      rw [div_div, mul_comm, ← div_div, div_self sqrt2_ne]
    have hceil3 : ⌈1 / (Grid.new (Real.sqrt 2 / 2 ^ 62) bl tr).cell_size⌉ =
        2 ^ 62 := by
      rw [hcs3, one_div_one_div]
      rw [show ((2 : ℝ) ^ 62) = (((2 ^ 62 : ℤ)) : ℝ) by push_cast; ring]
      rw [Int.ceil_intCast]
    unfold scanHalfWidthM satCast64 wrap64
    rw [hceil3]
    simp only [e62, e63, e64]
    split_ifs <;> omega

theorem c5_scan_half_width_machine_witness :
    (0 < Real.sqrt 2 ∧
      ⌈1 / (Grid.new (Real.sqrt 2) ⟨0, 0⟩ ⟨1, 1⟩).cell_size⌉ ≤ 2 ^ 62 - 2) ∧
    (scanHalfWidthM (Grid.new (Real.sqrt 2) ⟨0, 0⟩ ⟨1, 1⟩) =
        scanHalfWidth (Grid.new (Real.sqrt 2) ⟨0, 0⟩ ⟨1, 1⟩) ∧
      scanHalfWidth (Grid.new (Real.sqrt 2) ⟨0, 0⟩ ⟨1, 1⟩) =
        2 * (⌈1 / (Grid.new (Real.sqrt 2) ⟨0, 0⟩ ⟨1, 1⟩).cell_size⌉ + 1)) ∧
    (∃ radius : ℝ, 0 < radius ∧
      2 < scanHalfWidthM (Grid.new radius ⟨0, 0⟩ ⟨1, 1⟩)) ∧
    (∃ radius : ℝ, 0 < radius ∧
      scanHalfWidthM (Grid.new radius ⟨0, 0⟩ ⟨1, 1⟩) < 2) :=
  ⟨⟨sqrt2_pos, by rw [ceil_cell_size_sqrt2]; norm_num⟩,
    (c5_scan_half_width_machine ⟨0, 0⟩ ⟨1, 1⟩).1 (Real.sqrt 2) sqrt2_pos
      (by rw [ceil_cell_size_sqrt2]; norm_num),
    (c5_scan_half_width_machine ⟨0, 0⟩ ⟨1, 1⟩).2.1,
    (c5_scan_half_width_machine ⟨0, 0⟩ ⟨1, 1⟩).2.2⟩

/-- The oracle state held by the wrapper after the demo session's first
pull. -/
noncomputable def rngB : Rng := { rngA with vpos := 1 }

theorem demoAlgo1_ne : demoAlgo1.indices ≠ [] := by
  show ([5] : List Nat) ≠ []
  simp

theorem demoAlgo1_hk :
    (rngB.genRange demoAlgo1.indices.length).1 < demoAlgo1.indices.length :=
  Nat.zero_lt_one

theorem demoAlgo1_slot :
    demoAlgo1.grid.get
      (demoAlgo1.indices.get ⟨(rngB.genRange demoAlgo1.indices.length).1,
        demoAlgo1_hk⟩) = some ⟨1, 1⟩ :=
  demoGrid1_get5

/-- C6: in every call to `next` with a non-empty active set, at most 30
candidate proposals are drawn for the selected active point, each candidate
being the active point plus an annulus-distribution offset; the first
candidate accepted by `can_insert` is inserted into the grid and the active
set and returned, and if all 30 proposals fail the selected active-set slot
is removed by unordered swap-with-last removal and the procedure retries
from selecting a new active point. -/
theorem c6_proposal_loop (st : RobertBridson) (r : Rng) (xi : Vec2)
    (hne : st.indices ≠ [])
    (hk : (r.genRange st.indices.length).1 < st.indices.length)
    (hxi : st.grid.get
      (st.indices.get ⟨(r.genRange st.indices.length).1, hk⟩) = some xi) :
    (∀ j0, j0 < 30 →
      st.grid.can_insert
        (nthCandidate st.annulus_distr xi (r.genRange st.indices.length).2 j0)
          = true →
      (∀ j, j < j0 →
        st.grid.can_insert
          (nthCandidate st.annulus_distr xi (r.genRange st.indices.length).2 j)
            = false) →
      ∃ idx g',
        st.grid.insert
          (nthCandidate st.annulus_distr xi (r.genRange st.indices.length).2 j0) =
            some (idx, g') ∧
        st.next r = some
          (some (nthCandidate st.annulus_distr xi
            (r.genRange st.indices.length).2 j0),
           { st with grid := g', indices := st.indices ++ [idx] },
           ((r.genRange st.indices.length).2).bumpU (2 * (j0 + 1)))) ∧
    ((∀ j, j < 30 →
        st.grid.can_insert
          (nthCandidate st.annulus_distr xi (r.genRange st.indices.length).2 j)
            = false) →
      st.next r = RobertBridson.next
        { st with indices := swapRemove st.indices (r.genRange st.indices.length).1 }
        (((r.genRange st.indices.length).2).bumpU (2 * 30))) := by
  constructor
  · intro j0 hj0 hyes hno
    obtain ⟨wh, hcell⟩ := can_insert_get_cell hyes
    obtain ⟨⟨idx, g'⟩, hins⟩ := Option.isSome_iff_exists.mp (Grid.insert_isSome hcell)
    refine ⟨idx, g', hins, ?_⟩
    have hal := attemptLoop_first_success st.grid st.annulus_distr xi 30 j0
      (r.genRange st.indices.length).2 hj0 hyes hno idx g' hins
    have hstep := RobertBridson.next_some hne hk hxi
    rw [hal] at hstep
    exact hstep
  · intro hall
    have hal := attemptLoop_all_fail st.grid st.annulus_distr xi 30
      (r.genRange st.indices.length).2 hall
    have hstep := RobertBridson.next_some hne hk hxi
    rw [hal] at hstep
    exact hstep

theorem c6_proposal_loop_witness :
    (demoAlgo1.indices ≠ [] ∧
      demoAlgo1.grid.get
        (demoAlgo1.indices.get ⟨(rngB.genRange demoAlgo1.indices.length).1,
          demoAlgo1_hk⟩) = some ⟨1, 1⟩) ∧
    ((∀ j0, j0 < 30 →
      demoAlgo1.grid.can_insert
        (nthCandidate demoAlgo1.annulus_distr ⟨1, 1⟩
          (rngB.genRange demoAlgo1.indices.length).2 j0) = true →
      (∀ j, j < j0 →
        demoAlgo1.grid.can_insert
          (nthCandidate demoAlgo1.annulus_distr ⟨1, 1⟩
            (rngB.genRange demoAlgo1.indices.length).2 j) = false) →
      ∃ idx g',
        demoAlgo1.grid.insert
          (nthCandidate demoAlgo1.annulus_distr ⟨1, 1⟩
            (rngB.genRange demoAlgo1.indices.length).2 j0) = some (idx, g') ∧
        demoAlgo1.next rngB = some
          (some (nthCandidate demoAlgo1.annulus_distr ⟨1, 1⟩
            (rngB.genRange demoAlgo1.indices.length).2 j0),
           { demoAlgo1 with grid := g', indices := demoAlgo1.indices ++ [idx] },
           ((rngB.genRange demoAlgo1.indices.length).2).bumpU (2 * (j0 + 1)))) ∧
    ((∀ j, j < 30 →
        demoAlgo1.grid.can_insert
          (nthCandidate demoAlgo1.annulus_distr ⟨1, 1⟩
            (rngB.genRange demoAlgo1.indices.length).2 j) = false) →
      demoAlgo1.next rngB = RobertBridson.next
        { demoAlgo1 with
          indices := swapRemove demoAlgo1.indices
            (rngB.genRange demoAlgo1.indices.length).1 }
        (((rngB.genRange demoAlgo1.indices.length).2).bumpU (2 * 30)))) :=
  ⟨⟨demoAlgo1_ne, demoAlgo1_slot⟩,
    c6_proposal_loop demoAlgo1 rngB ⟨1, 1⟩ demoAlgo1_ne demoAlgo1_hk demoAlgo1_slot⟩

/-- C7: throughout every session, the active set only references grid
indices that currently hold `some` point; once a grid slot holds a point it
is never cleared and never overwritten by any subsequent pull; consequently
the fatal-abort branch in `next` for a missing active-set referent is
unreachable (an initialised reachable wrapper never aborts). -/
theorem c7_active_set_sound (pd : PoissonDisk) (hreach : PDReachable pd) :
    (∀ i ∈ pd.poisson_algo.indices, (pd.poisson_algo.grid.get i).isSome) ∧
    (∀ o pd', pd.next = some (o, pd') →
      ∀ i p, pd.poisson_algo.grid.get i = some p →
        pd'.poisson_algo.grid.get i = some p) ∧
    (pd.init = true → pd.next ≠ none) := by
  have hinv := reachable_inv hreach
  refine ⟨hinv.algWF.indicesStored, ?_, ?_⟩
  · intro o pd' hpull i p hp
    exact (pd_pull hinv hpull).2.2.2.2.2.1 i p hp
  · intro hinit hcon
    obtain ⟨o2, st', r', hnext, -⟩ := next_master pd.poisson_algo pd.rng hinv.algWF
    rw [PoissonDisk.next_started hinit, hnext] at hcon
    have hcon2 : some (o2, (⟨r', st', true⟩ : PoissonDisk)) = none := hcon
    exact absurd hcon2 (by simp)

theorem c7_active_set_sound_witness :
    PDReachable demoPD1 ∧
    ((∀ i ∈ demoPD1.poisson_algo.indices, (demoPD1.poisson_algo.grid.get i).isSome) ∧
    (∀ o pd', demoPD1.next = some (o, pd') →
      ∀ i p, demoPD1.poisson_algo.grid.get i = some p →
        pd'.poisson_algo.grid.get i = some p) ∧
    (demoPD1.init = true → demoPD1.next ≠ none)) :=
  ⟨demoPD1_reachable, c7_active_set_sound demoPD1 demoPD1_reachable⟩

/-- C8: during the acceptance step of `next`, for every candidate on which
`can_insert` returned `true`, `grid.insert` returns `some` (the
absence-of-result path is never taken there); that path is reachable during
`init`: a session whose domain draw lands exactly on the box corner aborts
on the first pull. -/
theorem c8_insert_acceptance :
    (∀ (g : Grid) (x : Vec2), g.can_insert x = true → (g.insert x).isSome) ∧
    runPulls (mkSession 1 ⟨0, 0⟩ ⟨1, 1⟩ rngZ) 1 = none := by
  constructor
  · intro g x h
    obtain ⟨wh, hc⟩ := can_insert_get_cell h
    exact Grid.insert_isSome hc
  · have hcell : (Grid.new 1 ⟨0, 0⟩ ⟨1, 1⟩).get_cell ⟨0, 0⟩ = none := by
      rcases hc : (Grid.new 1 ⟨0, 0⟩ ⟨1, 1⟩).get_cell ⟨0, 0⟩ with _ | c
      · rfl
      · exfalso
        obtain ⟨⟨h1, -, -, -⟩, -⟩ := Grid.get_cell_eq_some.mp hc
        have h1' : (0 : ℝ) < 0 := h1
        exact absurd h1' (lt_irrefl 0)
    have hins : (Grid.new 1 ⟨0, 0⟩ ⟨1, 1⟩).insert (⟨0, 0⟩ : Vec2) = none := by
      unfold Grid.insert Grid.get_index
      rw [hcell]
      rfl
    have hinit : (mkSession 1 ⟨0, 0⟩ ⟨1, 1⟩ rngZ).poisson_algo.init
        (mkSession 1 ⟨0, 0⟩ ⟨1, 1⟩ rngZ).rng = none := by
      have hcase := RobertBridson.init_cases
        (mkSession 1 ⟨0, 0⟩ ⟨1, 1⟩ rngZ).poisson_algo
        (mkSession 1 ⟨0, 0⟩ ⟨1, 1⟩ rngZ).rng
      rw [show (mkSession 1 ⟨0, 0⟩ ⟨1, 1⟩ rngZ).poisson_algo.grid.insert
          ((mkSession 1 ⟨0, 0⟩ ⟨1, 1⟩ rngZ).rng.vecs
            (mkSession 1 ⟨0, 0⟩ ⟨1, 1⟩ rngZ).rng.vpos) = none from hins] at hcase
      exact hcase
    have hpd : (mkSession 1 ⟨0, 0⟩ ⟨1, 1⟩ rngZ).next = none := by
      rw [PoissonDisk.next_fresh (show (mkSession 1 ⟨0, 0⟩ ⟨1, 1⟩ rngZ).init = false
        from rfl), hinit]
    rw [runPulls_succ, hpd]

theorem c8_insert_acceptance_witness :
    demoGrid.can_insert ⟨1, 1⟩ = true ∧ (demoGrid.insert ⟨1, 1⟩).isSome :=
  ⟨can_insert_of_empty demoGrid_empty demoGrid_cell,
    c8_insert_acceptance.1 demoGrid ⟨1, 1⟩
      (can_insert_of_empty demoGrid_empty demoGrid_cell)⟩

/-- C9 (counterexample): the claim fails as stated for `low = high = -1`
(which satisfies `low ≤ high`): the sampled vector has norm `1`, which is
not `≤ high = -1`. -/
theorem c9_counterexample :
    (-1 : ℝ) ≤ -1 ∧
    ¬ (Real.sqrt ((((AnnulusDistribution.new (-1) (-1)).sample rngA).1).length_squared)
        ≤ -1) := by
  refine ⟨le_refl _, ?_⟩
  have hd1 : ((AnnulusDistribution.new (-1 : ℝ) (-1)).radius.sample rngA).1 = 1 := by
    show (-1 : ℝ) * (-1) + ((-1 : ℝ) * (-1) - (-1 : ℝ) * (-1)) * clamp01 1 = 1
    norm_num
  have hls := annulus_norm_sq (AnnulusDistribution.new (-1) (-1)) rngA
    (by rw [hd1]; norm_num)
  rw [hls, hd1, Real.sqrt_one]
  norm_num

/-- C9 (amended): for every `0 ≤ low ≤ high` and every oracle state,
`AnnulusDistribution::new(low, high).sample` returns a vector `v` with
`low ≤ |v| ≤ high`, where `|v|` is obtained by drawing the squared radius
from `[low^2, high^2]` and taking the square root, and the angle draw lies
in `[0, 2*pi]`. -/
theorem c9_annulus_sample (low high : ℝ) (r : Rng) (h0 : 0 ≤ low)
    (hlh : low ≤ high) :
    low ≤ Real.sqrt ((((AnnulusDistribution.new low high).sample r).1).length_squared) ∧
    Real.sqrt ((((AnnulusDistribution.new low high).sample r).1).length_squared) ≤ high ∧
    ∃ d θ, low * low ≤ d ∧ d ≤ high * high ∧ 0 ≤ θ ∧ θ ≤ 2 * Real.pi ∧
      ((AnnulusDistribution.new low high).sample r).1 =
        Vec2.from_components (Real.sqrt d * Real.cos θ) (Real.sqrt d * Real.sin θ) := by
  have hsq : low * low ≤ high * high := mul_self_le_mul_self h0 hlh
  have hmem : low * low ≤ ((AnnulusDistribution.new low high).radius.sample r).1 ∧
      ((AnnulusDistribution.new low high).radius.sample r).1 ≤ high * high :=
    uniformR_sample_mem hsq r
  have hd0 : 0 ≤ ((AnnulusDistribution.new low high).radius.sample r).1 :=
    le_trans (mul_self_nonneg low) hmem.1
  have hls := annulus_norm_sq (AnnulusDistribution.new low high) r hd0
  have hangle : (0 : ℝ) ≤ ((AnnulusDistribution.new low high).angle.sample
        (((AnnulusDistribution.new low high).radius.sample r).2)).1 ∧
      ((AnnulusDistribution.new low high).angle.sample
        (((AnnulusDistribution.new low high).radius.sample r).2)).1 ≤ 2 * Real.pi :=
    uniformR_sample_mem (by positivity) _
  refine ⟨?_, ?_, ((AnnulusDistribution.new low high).radius.sample r).1,
    ((AnnulusDistribution.new low high).angle.sample
      (((AnnulusDistribution.new low high).radius.sample r).2)).1,
    hmem.1, hmem.2, hangle.1, hangle.2, rfl⟩
  · rw [hls]
    calc low = Real.sqrt (low * low) := (Real.sqrt_mul_self h0).symm
      _ ≤ _ := Real.sqrt_le_sqrt hmem.1
  · rw [hls]
    calc Real.sqrt (((AnnulusDistribution.new low high).radius.sample r).1)
        ≤ Real.sqrt (high * high) := Real.sqrt_le_sqrt hmem.2
      _ = high := Real.sqrt_mul_self (h0.trans hlh)

theorem c9_annulus_sample_witness :
    ((0 : ℝ) ≤ 1 ∧ (1 : ℝ) ≤ 2) ∧
    ((1 : ℝ) ≤ Real.sqrt ((((AnnulusDistribution.new 1 2).sample rngA).1).length_squared) ∧
    Real.sqrt ((((AnnulusDistribution.new 1 2).sample rngA).1).length_squared) ≤ 2 ∧
    ∃ d θ, (1 : ℝ) * 1 ≤ d ∧ d ≤ 2 * 2 ∧ 0 ≤ θ ∧ θ ≤ 2 * Real.pi ∧
      ((AnnulusDistribution.new 1 2).sample rngA).1 =
        Vec2.from_components (Real.sqrt d * Real.cos θ) (Real.sqrt d * Real.sin θ)) :=
  ⟨⟨by norm_num, by norm_num⟩,
    c9_annulus_sample 1 2 rngA (by norm_num) (by norm_num)⟩

/-- C10: the separation between accepted points is strict — when
`can_insert` accepts a candidate, every stored point is strictly farther
than `radius` (in squared distance) from it, so every pair of distinct
emitted points in a session is strictly more than `radius` apart. -/
theorem c10_strict_separation :
    (∀ (g : Grid) (x : Vec2), GridWF g → g.can_insert x = true →
      ∀ i p, g.get i = some p →
        g.radius * g.radius < (p.sub x).length_squared) ∧
    (∀ (radius : ℝ) (bl tr : Vec2) (r : Rng) (n : Nat) (xs : List Vec2)
        (pd' : PoissonDisk), 0 < radius →
      runPulls (mkSession radius bl tr r) n = some (xs, pd') →
      List.Pairwise (fun p q => radius < euclidDist p q) xs) := by
  constructor
  · exact fun g x hwf hci => can_insert_far hwf hci
  · intro radius bl tr r n xs pd' hrad hrun
    obtain ⟨-, -, -, -, -, -, hpair, -⟩ :=
      trace_lemma n _ (PDInv_new hrad bl tr r) xs pd' hrun
    refine hpair.imp ?_
    intro p q hpq
    have hpq' : radius * radius < (p.sub q).length_squared := hpq
    unfold euclidDist
    calc radius = Real.sqrt (radius * radius) := (Real.sqrt_mul_self hrad.le).symm
      _ < Real.sqrt ((p.sub q).length_squared) :=
          Real.sqrt_lt_sqrt (mul_self_nonneg radius) hpq'

theorem c10_strict_separation_witness :
    (GridWF demoGrid ∧ demoGrid.can_insert ⟨1, 1⟩ = true ∧ 0 < Real.sqrt 2 ∧
      runPulls (mkSession (Real.sqrt 2) ⟨0, 0⟩ ⟨4, 4⟩ rngA) 1 =
        some ([⟨1, 1⟩], demoPD1)) ∧
    (∀ i p, demoGrid.get i = some p →
      demoGrid.radius * demoGrid.radius < (p.sub ⟨1, 1⟩).length_squared) ∧
    List.Pairwise (fun p q => Real.sqrt 2 < euclidDist p q) [(⟨1, 1⟩ : Vec2)] :=
  ⟨⟨demoGridWF, can_insert_of_empty demoGrid_empty demoGrid_cell, sqrt2_pos,
      demoSession_run1⟩,
    c10_strict_separation.1 demoGrid ⟨1, 1⟩ demoGridWF
      (can_insert_of_empty demoGrid_empty demoGrid_cell),
    c10_strict_separation.2 (Real.sqrt 2) ⟨0, 0⟩ ⟨4, 4⟩ rngA 1 [⟨1, 1⟩] demoPD1
      sqrt2_pos demoSession_run1⟩
